import Mathlib

/-!
Verification of the catmd document-concatenation core.

This file gives a shallow embedding of the catmd source (parser.go,
transform.go, traversal.go, main.go) and settles the specification claims
against it.

Path handling: catmd leans on Go's `path/filepath` package
(`Clean`, `Join`, `Rel`, `Abs`, `Base`, `Dir`, `IsAbs`), which on Unix is
purely lexical.  Those functions are modelled here at the character-list
level (`String.data`), processing '/'-separated components exactly as the
Go implementations do.  `filepath.Abs` consults the process working
directory when its argument is relative; every call site in catmd passes
an absolute path, so the model returns `none` for relative input and the
theorems carry absoluteness hypotheses where that matters.
-/

namespace Catmd

/-- Splits a character list on '/' separators, keeping empty components,
mirroring the component view of a Go path string (as in `strings.Split`). -/
def splitChars : List Char → List (List Char)
  | [] => [[]]
  | c :: cs =>
    match splitChars cs with
    | [] => [[c]]
    | h :: t => if c = '/' then [] :: h :: t else (c :: h) :: t

/-- The path component ".." as characters. -/
def dotdot : List Char := ['.', '.']

/-- One step of `filepath.Clean`'s element processing: drop empty and "."
components; ".." pops the previous component (dropped entirely at the root
of an absolute path, kept for a relative path with nothing left to pop).
The accumulator holds the output components in reverse order. -/
def cleanStep (abs : Bool) (acc : List (List Char)) (comp : List Char) : List (List Char) :=
  if comp = [] ∨ comp = ['.'] then acc
  else if comp = dotdot then
    match acc with
    | [] => if abs then [] else [dotdot]
    | a :: rest => if a = dotdot then dotdot :: a :: rest else rest
  else comp :: acc

/-- Cleaned components, in order (see `cleanStep`). -/
def cleanComps (abs : Bool) (l : List (List Char)) : List (List Char) :=
  (l.foldl (cleanStep abs) []).reverse

/-- Joins components with '/' separators. -/
def intercalateChars : List (List Char) → List Char
  | [] => []
  | [c] => c
  | c :: cs => c ++ '/' :: intercalateChars cs

/-- Renders a cleaned component list back to a path ("." for an empty
relative path, "/" for an empty absolute one), as `filepath.Clean` does. -/
def renderPath (abs : Bool) (l : List (List Char)) : List Char :=
  if abs then '/' :: intercalateChars l
  else if l = [] then ['.'] else intercalateChars l

/-- Whether a character list denotes an absolute Unix path (`filepath.IsAbs`). -/
def isAbsChars (cs : List Char) : Bool := cs.head? = some '/'

/-- Character-level `filepath.Clean` (Unix). -/
def cleanChars (cs : List Char) : List Char :=
  renderPath (isAbsChars cs) (cleanComps (isAbsChars cs) (splitChars cs))

/-- Models `filepath.Clean`. -/
def goClean (s : String) : String := ⟨cleanChars s.data⟩

/-- Models `filepath.IsAbs`. -/
def goIsAbs (s : String) : Bool := isAbsChars s.data

/-- Models `strings.HasPrefix s pre` (argument order as in Go). -/
def goStartsWith (s pre : String) : Bool := pre.data.isPrefixOf s.data

/-- Models `filepath.Join` on two elements: empty elements are skipped and
the result is cleaned. -/
def goJoin (a b : String) : String :=
  if a = "" ∧ b = "" then ""
  else if a = "" then goClean b
  else if b = "" then goClean a
  else goClean ⟨a.data ++ '/' :: b.data⟩

/-- Strips the longest common component prefix from two component lists. -/
def stripCommon : List (List Char) → List (List Char) → List (List Char) × List (List Char)
  | a :: as, b :: bs => if a = b then stripCommon as bs else (a :: as, b :: bs)
  | as, bs => (as, bs)

/-- Models `filepath.Rel base targ`: `none` is Go's error result (mixed
absolute/relative arguments, or a ".." left in the base after removing the
common prefix). -/
def goRel (base targ : String) : Option String :=
  let ab := goIsAbs base
  if ab ≠ goIsAbs targ then none
  else
    let b := cleanComps ab (splitChars base.data)
    let t := cleanComps ab (splitChars targ.data)
    let p := stripCommon b t
    if dotdot ∈ p.1 then none
    else some ⟨renderPath false (List.replicate p.1.length dotdot ++ p.2)⟩

/-- Character-level `filepath.Base`: strip trailing slashes, then keep the
last component ("." for empty input, "/" for all-slash input). -/
def baseChars (cs : List Char) : List Char :=
  if cs = [] then ['.']
  else
    let r := cs.reverse.dropWhile (fun c => c = '/')
    if r = [] then ['/']
    else (r.takeWhile (fun c => c != '/')).reverse

/-- Models `filepath.Base`. -/
def goBase (s : String) : String := ⟨baseChars s.data⟩

/-- Models `filepath.Dir`: everything up to the final path element, cleaned. -/
def goDir (s : String) : String :=
  ⟨cleanChars (s.data.reverse.dropWhile (fun c => c != '/')).reverse⟩

/-- Models `filepath.Abs`.  Every call site in catmd passes an absolute
path, for which Go's `Abs` is `Clean`; the relative case (which would
consult the process working directory) is modelled as `none` and treated
by callers like the error branch. -/
def goAbs (s : String) : Option String :=
  if goIsAbs s then some (goClean s) else none

/-! Embeddings of parser.go -/

/-- Header metadata extracted by the parser (`HeaderInfo` in parser.go);
`id` is the identifier generated by goldmark's auto-heading-ID extension. -/
structure HeaderInfo where
  level : Nat
  text : String
  id : String
deriving DecidableEq

/-- Link metadata extracted by the parser (`LinkInfo` in parser.go). -/
structure LinkInfo where
  url : String
  text : String
  isInternal : Bool
  isFootnote : Bool
deriving DecidableEq

/-- Models `isInternalLink` from parser.go: scheme-qualified, fragment-only
and absolute destinations are external; otherwise the cleaned destination
is re-checked against the scope directory only when it begins with "../". -/
def isInternalLink (url scopeDir : String) : Bool :=
  if goStartsWith url "http://" || goStartsWith url "https://" then false
  else if goStartsWith url "#" then false
  else if goStartsWith url "mailto:" then false
  else if goIsAbs url then false
  else
    let cleanPath := goClean url
    if goStartsWith cleanPath "../" then
      let absPath := goJoin scopeDir cleanPath
      match goRel scopeDir absPath with
      | none => false
      | some relPath => !goStartsWith relPath "../"
    else true

/-- Models `GenerateSectionLink` from parser.go: '#' plus the base name of
the file, extension included. -/
def GenerateSectionLink (filename : String) : String :=
  "#" ++ goBase filename

/-! Embeddings of transform.go (scalar parts) -/

/-- Models `FileProcessor.isInternalLink` from transform.go (the transform
phase variant, which performs no scope-boundary re-check). -/
def fpIsInternalLink (url : String) : Bool :=
  if goStartsWith url "http://" || goStartsWith url "https://" then false
  else if goStartsWith url "#" then false
  else if goStartsWith url "mailto:" then false
  else if goIsAbs url then false
  else true

/-- Models `resolveLink` (identical in transform.go and traversal.go):
strip the fragment, fail on an empty remainder, resolve relative
destinations against the current file's directory, and canonicalize. -/
def resolveLink (currentFile linkURL : String) : Option String :=
  let currentDir := goDir currentFile
  let stripped : String :=
    if linkURL.data.contains '#' then ⟨linkURL.data.takeWhile (fun c => c != '#')⟩
    else linkURL
  if stripped = "" then none
  else
    let resolved := if goIsAbs stripped then stripped else goJoin currentDir stripped
    goAbs resolved

/-- Models `generateFileHeader` from transform.go: `some h` is the
synthetic header line, `none` is Go's empty string (keep the document's
own header). -/
def generateFileHeader (filename : String) (headers : List HeaderInfo) : Option String :=
  let topLevelHeaders := headers.filter (fun h => h.level = 1)
  if topLevelHeaders.length ≠ 1 then some ("# " ++ goBase filename)
  else
    let firstHeaderIsTopLevel :=
      match headers.find? (fun h => 0 < h.level) with
      | some h => h.level == 1
      | none => false
    if firstHeaderIsTopLevel then none
    else some ("# " ++ goBase filename)

/-- Models `generateTargetAnchor` from transform.go over the pre-loaded
header cache `fileHeaders`: the anchor of the first level-1 header when
one exists, the filename-derived section link otherwise. -/
def generateTargetAnchor (fileHeaders : String → Option (List HeaderInfo))
    (targetPath : String) : String :=
  match fileHeaders targetPath with
  | none => GenerateSectionLink targetPath
  | some headers =>
    match headers.find? (fun h => h.level = 1) with
    | some h => "#" ++ h.id
    | none => GenerateSectionLink targetPath

/-- The fragment suffix that `transformLinks` re-attaches: everything from
the first '#' of the original destination on (empty when there is none). -/
def fragmentOf (dest : String) : String :=
  if dest.data.contains '#' then ⟨'#' :: (dest.data.dropWhile (fun c => c != '#')).tail⟩
  else ""

/-! The document tree.

The goldmark AST is modelled as a mutual inductive: the node kinds catmd
inspects (headings, links, footnote references, footnote definitions and
the footnote list container) are explicit constructors; all other block
and inline containers that merely carry children are represented by
`paragraph`/`emphasis`/`document`; leaf text is `text`.  A `heading`
carries the identifier goldmark's auto-heading-ID extension generated for
it; a `footnote` definition carries its goldmark index, its reference
label (`Ref`) and, standing for the source segment that
`extractFootnoteContent` in parser.go extracts, the definition's content
text. -/

mutual

inductive MDNode where
  | document (children : MDNodes)
  | heading (level : Nat) (id : String) (children : MDNodes)
  | text (s : String)
  | paragraph (children : MDNodes)
  | emphasis (children : MDNodes)
  | link (dest : String) (children : MDNodes)
  | footnoteLink (index : Nat)
  | footnote (index : Nat) (ref : String) (content : String) (children : MDNodes)
  | footnoteList (children : MDNodes)

inductive MDNodes where
  | nil
  | cons (head : MDNode) (tail : MDNodes)

end

mutual

/-- Models `extractHeaders` from parser.go: the headings of the document in
walk (preorder) order. -/
def extractHeaders : MDNode → List HeaderInfo
  | .document cs => extractHeadersList cs
  | .heading lvl id cs => ⟨lvl, "", id⟩ :: extractHeadersList cs
  | .text _ => []
  | .paragraph cs => extractHeadersList cs
  | .emphasis cs => extractHeadersList cs
  | .link _ cs => extractHeadersList cs
  | .footnoteLink _ => []
  | .footnote _ _ _ cs => extractHeadersList cs
  | .footnoteList cs => extractHeadersList cs

def extractHeadersList : MDNodes → List HeaderInfo
  | .nil => []
  | .cons n ns => extractHeaders n ++ extractHeadersList ns

end

mutual

/-- Models the level-1 counting walk in `renderModifiedContent`
(transform.go). -/
def countLevel1 : MDNode → Nat
  | .document cs => countLevel1List cs
  | .heading lvl _ cs => (if lvl = 1 then 1 else 0) + countLevel1List cs
  | .text _ => 0
  | .paragraph cs => countLevel1List cs
  | .emphasis cs => countLevel1List cs
  | .link _ cs => countLevel1List cs
  | .footnoteLink _ => 0
  | .footnote _ _ _ cs => countLevel1List cs
  | .footnoteList cs => countLevel1List cs

def countLevel1List : MDNodes → Nat
  | .nil => 0
  | .cons n ns => countLevel1 n + countLevel1List ns

end

mutual

/-- Models `adjustHeaderLevelsInAST` from transform.go: every heading
level is incremented, capped at 6. -/
def adjustHeaderLevels : MDNode → MDNode
  | .document cs => .document (adjustHeaderLevelsList cs)
  | .heading lvl id cs =>
      .heading (if lvl < 6 then lvl + 1 else lvl) id (adjustHeaderLevelsList cs)
  | .text s => .text s
  | .paragraph cs => .paragraph (adjustHeaderLevelsList cs)
  | .emphasis cs => .emphasis (adjustHeaderLevelsList cs)
  | .link d cs => .link d (adjustHeaderLevelsList cs)
  | .footnoteLink i => .footnoteLink i
  | .footnote i r c cs => .footnote i r c (adjustHeaderLevelsList cs)
  | .footnoteList cs => .footnoteList (adjustHeaderLevelsList cs)

def adjustHeaderLevelsList : MDNodes → MDNodes
  | .nil => .nil
  | .cons n ns => .cons (adjustHeaderLevels n) (adjustHeaderLevelsList ns)

end

/-- Models the header-adjustment decision inside `renderModifiedContent`
(transform.go): when a synthetic header will be added
(`needsHeaderAdjustment`) and the document contains at least one level-1
heading, all heading levels are demoted. -/
def headerAdjustStep (needsHeaderAdjustment : Bool) (t : MDNode) : MDNode :=
  if needsHeaderAdjustment ∧ 0 < countLevel1 t then adjustHeaderLevels t else t

/-! Footnote inlining (transform.go `inlineFootnotes`). -/

/-- Last-match association-list lookup, modelling a Go map built by
repeated assignment (a later write overwrites an earlier one). -/
def mapLookupLast (l : List (String × String)) (k : String) : Option String :=
  List.lookup k l.reverse

mutual

/-- Models `extractFootnotes` from parser.go: every footnote definition's
reference label paired with its extracted content, in walk order. -/
def extractFootnotes : MDNode → List (String × String)
  | .document cs => extractFootnotesList cs
  | .heading _ _ cs => extractFootnotesList cs
  | .text _ => []
  | .paragraph cs => extractFootnotesList cs
  | .emphasis cs => extractFootnotesList cs
  | .link _ cs => extractFootnotesList cs
  | .footnoteLink _ => []
  | .footnote _ r c cs => (r, c) :: extractFootnotesList cs
  | .footnoteList cs => extractFootnotesList cs

def extractFootnotesList : MDNodes → List (String × String)
  | .nil => []
  | .cons n ns => extractFootnotes n ++ extractFootnotesList ns

end

mutual

/-- The index-to-label pairs of every footnote definition, in walk order
(the `footnoteIndexToID` map built in `inlineFootnotes`). -/
def footnoteIndexPairs : MDNode → List (Nat × String)
  | .document cs => footnoteIndexPairsList cs
  | .heading _ _ cs => footnoteIndexPairsList cs
  | .text _ => []
  | .paragraph cs => footnoteIndexPairsList cs
  | .emphasis cs => footnoteIndexPairsList cs
  | .link _ cs => footnoteIndexPairsList cs
  | .footnoteLink _ => []
  | .footnote i r _ cs => (i, r) :: footnoteIndexPairsList cs
  | .footnoteList cs => footnoteIndexPairsList cs

def footnoteIndexPairsList : MDNodes → List (Nat × String)
  | .nil => []
  | .cons n ns => footnoteIndexPairs n ++ footnoteIndexPairsList ns

end

/-- The `footnoteIndexToID` map of `inlineFootnotes` as a function; a
missing key yields Go's zero value "". -/
def indexToIDOf (t : MDNode) (idx : Nat) : String :=
  (List.lookup idx (footnoteIndexPairs t).reverse).getD ""

mutual

/-- The walk of `inlineFootnotes` (transform.go), parametrized by the
content map and the index-to-label map: a footnote reference whose label
has content is replaced by the plain text " (content)"; footnote
definitions and the footnote list container are removed from every
child list (the code marks them during the walk and then detaches them
from their parents). -/
def inlineNode (cm : String → Option String) (iid : Nat → String) : MDNode → MDNode
  | .document cs => .document (inlineChildren cm iid cs)
  | .heading lvl id cs => .heading lvl id (inlineChildren cm iid cs)
  | .text s => .text s
  | .paragraph cs => .paragraph (inlineChildren cm iid cs)
  | .emphasis cs => .emphasis (inlineChildren cm iid cs)
  | .link d cs => .link d (inlineChildren cm iid cs)
  | .footnoteLink idx =>
    match cm (iid idx) with
    | some content => .text (" (" ++ content ++ ")")
    | none => .footnoteLink idx
  | .footnote i r c cs => .footnote i r c cs
  | .footnoteList cs => .footnoteList cs

def inlineChildren (cm : String → Option String) (iid : Nat → String) : MDNodes → MDNodes
  | .nil => .nil
  | .cons n ns =>
    match n with
    | .footnote _ _ _ _ => inlineChildren cm iid ns
    | .footnoteList _ => inlineChildren cm iid ns
    | _ => .cons (inlineNode cm iid n) (inlineChildren cm iid ns)

end

/-- Models `inlineFootnotes` from transform.go, put together from the maps
it builds over the parsed document. -/
def inlineFootnotes (t : MDNode) : MDNode :=
  inlineNode (mapLookupLast (extractFootnotes t)) (indexToIDOf t) t

mutual

/-- Models `transformLinks` from transform.go: a link destination is
rewritten to the target anchor plus the original fragment exactly when the
transform-phase classifier accepts it, it resolves, and the resolved path
is in the visited set. -/
def transformLinksNode (visited : String → Bool)
    (fh : String → Option (List HeaderInfo)) (filename : String) : MDNode → MDNode
  | .document cs => .document (transformLinksList visited fh filename cs)
  | .heading lvl id cs => .heading lvl id (transformLinksList visited fh filename cs)
  | .text s => .text s
  | .paragraph cs => .paragraph (transformLinksList visited fh filename cs)
  | .emphasis cs => .emphasis (transformLinksList visited fh filename cs)
  | .link dest cs =>
    let newDest :=
      if fpIsInternalLink dest then
        match resolveLink filename dest with
        | some resolvedPath =>
          if visited resolvedPath then
            generateTargetAnchor fh resolvedPath ++ fragmentOf dest
          else dest
        | none => dest
      else dest
    .link newDest (transformLinksList visited fh filename cs)
  | .footnoteLink i => .footnoteLink i
  | .footnote i r c cs => .footnote i r c (transformLinksList visited fh filename cs)
  | .footnoteList cs => .footnoteList (transformLinksList visited fh filename cs)

def transformLinksList (visited : String → Bool)
    (fh : String → Option (List HeaderInfo)) (filename : String) : MDNodes → MDNodes
  | .nil => .nil
  | .cons n ns =>
    .cons (transformLinksNode visited fh filename n)
      (transformLinksList visited fh filename ns)

end

/-! Embeddings of traversal.go and the traversal-facing file system.

The file system is a finite association list from canonical path to file
entry, with Go-map (last write wins) lookup.  An entry present in the list
is a file `os.Stat` succeeds on (`fileExists`); `readable` tells whether
`os.ReadFile` succeeds on it; `links` is the parser's link list for its
content (`ParseMarkdownFile` in parser.go never returns an error, so a
parse failure cannot occur and is not modelled). -/

structure TDoc where
  readable : Bool
  links : List LinkInfo
deriving DecidableEq

abbrev FS := List (String × TDoc)

/-- Go-map lookup over the association list (last write wins). -/
def fsLookup (fs : FS) (p : String) : Option TDoc :=
  List.lookup p fs.reverse

/-- Models `fileExists` from traversal.go. -/
def fileExists (fs : FS) (p : String) : Bool :=
  (fsLookup fs p).isSome

/-- Models `isWithinScope` from traversal.go: both paths canonicalized,
then the relative path from the scope to the file must not start with
"../" and must not be "..". -/
def isWithinScope (scopeDir filename : String) : Bool :=
  match goAbs scopeDir with
  | none => false
  | some absScope =>
    match goAbs filename with
    | none => false
    | some absFile =>
      match goRel absScope absFile with
      | none => false
      | some relPath => !goStartsWith relPath "../" && relPath != ".."

/-- Models `extractLinksFromFile` from traversal.go: `none` is the error
result (missing or unreadable file); otherwise the internal, non-footnote
links that resolve and whose resolved target exists on disk. -/
def extractLinksFromFile (fs : FS) (filename : String) : Option (List String) :=
  match fsLookup fs filename with
  | none => none
  | some d =>
    if d.readable then
      some (d.links.filterMap (fun l =>
        if l.isInternal && !l.isFootnote then
          match resolveLink filename l.url with
          | some p => if fileExists fs p then some p else none
          | none => none
        else none))
    else none

/-- The traversal state (`FileTraversal` in traversal.go).  Go pushes and
pops at the end of its queue slice; the stack here is kept top-first, so
Go's push loop over the links in reverse order becomes an order-preserving
filter prepended to the stack. -/
structure TravState where
  visited : List String
  stack : List String
  fileOrder : List String
deriving DecidableEq

/-- The links of the current file that get pushed: not yet visited and
within scope, in document order (see `TravState` on the representation). -/
def pushLinks (scopeDir : String) (visited : List String) (links : List String) :
    List String :=
  links.filter (fun l => !visited.contains l && isWithinScope scopeDir l)

/-- Models the loop of `Traverse` from traversal.go, with explicit fuel;
`none` means the fuel ran out before the loop finished. -/
def traverseLoop (fs : FS) (scopeDir : String) :
    Nat → TravState → Option (Except String (List String))
  | 0, _ => none
  | fuel + 1, s =>
    match s.stack with
    | [] => some (.ok s.fileOrder)
    | currentFile :: rest =>
      if s.visited.contains currentFile then
        traverseLoop fs scopeDir fuel { s with stack := rest }
      else
        match extractLinksFromFile fs currentFile with
        | none => some (.error ("failed to process file " ++ currentFile))
        | some links =>
          traverseLoop fs scopeDir fuel
            { visited := currentFile :: s.visited
              stack := pushLinks scopeDir (currentFile :: s.visited) links ++ rest
              fileOrder := s.fileOrder ++ [currentFile] }

/-- Models `Traverse` run from the initial state `NewFileTraversal`
builds: empty visited set and order, the root file queued. -/
def traverseRun (fs : FS) (scopeDir rootFile : String) (fuel : Nat) :
    Option (Except String (List String)) :=
  traverseLoop fs scopeDir fuel { visited := [], stack := [rootFile], fileOrder := [] }

mutual

/-- The link destinations of a tree, in walk (preorder) order. -/
def destsOf : MDNode → List String
  | .document cs => destsOfList cs
  | .heading _ _ cs => destsOfList cs
  | .text _ => []
  | .paragraph cs => destsOfList cs
  | .emphasis cs => destsOfList cs
  | .link dest cs => dest :: destsOfList cs
  | .footnoteLink _ => []
  | .footnote _ _ _ cs => destsOfList cs
  | .footnoteList cs => destsOfList cs

def destsOfList : MDNodes → List String
  | .nil => []
  | .cons n ns => destsOf n ++ destsOfList ns

end

mutual

/-- The tree with every link destination blanked: two trees with equal
`eraseDests` images differ at most in link destinations. -/
def eraseDests : MDNode → MDNode
  | .document cs => .document (eraseDestsList cs)
  | .heading lvl id cs => .heading lvl id (eraseDestsList cs)
  | .text s => .text s
  | .paragraph cs => .paragraph (eraseDestsList cs)
  | .emphasis cs => .emphasis (eraseDestsList cs)
  | .link _ cs => .link "" (eraseDestsList cs)
  | .footnoteLink i => .footnoteLink i
  | .footnote i r c cs => .footnote i r c (eraseDestsList cs)
  | .footnoteList cs => .footnoteList (eraseDestsList cs)

def eraseDestsList : MDNodes → MDNodes
  | .nil => .nil
  | .cons n ns => .cons (eraseDests n) (eraseDestsList ns)

end

/-- The condition under which `transformLinks` rewrites a destination:
accepted by the transform-phase classifier, resolvable, and resolved to a
visited file. -/
def qualifiesForRewrite (visited : String → Bool) (filename dest : String) : Bool :=
  fpIsInternalLink dest &&
    (match resolveLink filename dest with
     | some p => visited p
     | none => false)

mutual

/-- How many footnote-syntax nodes (references, definitions, the footnote
list container) a tree contains. -/
def footnoteNodeCount : MDNode → Nat
  | .document cs => footnoteNodeCountList cs
  | .heading _ _ cs => footnoteNodeCountList cs
  | .text _ => 0
  | .paragraph cs => footnoteNodeCountList cs
  | .emphasis cs => footnoteNodeCountList cs
  | .link _ cs => footnoteNodeCountList cs
  | .footnoteLink _ => 1
  | .footnote _ _ _ cs => 1 + footnoteNodeCountList cs
  | .footnoteList cs => 1 + footnoteNodeCountList cs

def footnoteNodeCountList : MDNodes → Nat
  | .nil => 0
  | .cons n ns => footnoteNodeCount n + footnoteNodeCountList ns

end

mutual

/-- The indices of every footnote-reference node in the tree. -/
def footnoteLinkIndices : MDNode → List Nat
  | .document cs => footnoteLinkIndicesList cs
  | .heading _ _ cs => footnoteLinkIndicesList cs
  | .text _ => []
  | .paragraph cs => footnoteLinkIndicesList cs
  | .emphasis cs => footnoteLinkIndicesList cs
  | .link _ cs => footnoteLinkIndicesList cs
  | .footnoteLink idx => [idx]
  | .footnote _ _ _ cs => footnoteLinkIndicesList cs
  | .footnoteList cs => footnoteLinkIndicesList cs

def footnoteLinkIndicesList : MDNodes → List Nat
  | .nil => []
  | .cons n ns => footnoteLinkIndices n ++ footnoteLinkIndicesList ns

end

/-- Whether the node is footnote apparatus that `inlineFootnotes` detaches
from its parent (a definition or the footnote list container). -/
def isFootnoteCarrier : MDNode → Bool
  | .footnote _ _ _ _ => true
  | .footnoteList _ => true
  | _ => false

/-- The parser invariant under which catmd operates: goldmark only emits a
footnote-reference node when its label resolves to a definition, so every
reference index in the document maps to extracted footnote content. -/
def AllRefsDefined (t : MDNode) : Prop :=
  ∀ idx ∈ footnoteLinkIndices t,
    (mapLookupLast (extractFootnotes t) (indexToIDOf t idx)).isSome = true

/-! Spec-side notions for link classification (claim C4). -/

/-- The canonical absolute components of a path string. -/
def absCompsOf (s : String) : List (List Char) :=
  cleanComps true (splitChars s.data)

/-- The specification's boundary notion: `p` is equal to or nested under
`boundary`, component-wise on canonicalized absolute paths. -/
def atOrUnder (p boundary : String) : Bool :=
  (absCompsOf boundary).isPrefixOf (absCompsOf p)

/-- Stated from the specification's wording (claim C4, for comparison with
`isInternalLink`): scheme-qualified, fragment-only and absolute
destinations are external; all others are resolved relative to the current
document's directory with the fragment suffix stripped first, and are
internal exactly when the resolved canonical path is equal to or nested
under the scope boundary. -/
def specClassify (url currentFile scopeDir : String) : Bool :=
  if goStartsWith url "http://" || goStartsWith url "https://" then false
  else if goStartsWith url "#" then false
  else if goStartsWith url "mailto:" then false
  else if goIsAbs url then false
  else
    let stripped : String := ⟨url.data.takeWhile (fun c => c != '#')⟩
    atOrUnder (goJoin (goDir currentFile) stripped) scopeDir

/-- A well-formed path component: nonempty, not "." or "..", and free of
separators. -/
def ValidComp (c : List Char) : Prop :=
  c ≠ [] ∧ c ≠ ['.'] ∧ c ≠ dotdot ∧ '/' ∉ c

/-- All components well-formed. -/
def ValidComps (l : List (List Char)) : Prop := ∀ c ∈ l, ValidComp c

/-- The absolute path a component list denotes. -/
def mkAbsPath (sc : List (List Char)) : String := ⟨renderPath true sc⟩

/-! Concrete fixtures and auxiliary definitions used by the theorems below. -/

def fsCycle : FS :=
  [("/s/a.md", ⟨true, [⟨"b.md", "b", true, false⟩]⟩),
   ("/s/b.md", ⟨true, [⟨"a.md", "a", true, false⟩]⟩)]

def fsUnreadable : FS :=
  [("/s/a.md", ⟨true, [⟨"b.md", "b", true, false⟩]⟩),
   ("/s/b.md", ⟨false, []⟩)]

def fsMissing : FS :=
  [("/s/a.md", ⟨true, [⟨"missing.md", "m", true, false⟩, ⟨"c.md", "c", true, false⟩]⟩),
   ("/s/c.md", ⟨true, []⟩)]


/-- The level change `adjustHeaderLevelsInAST` applies to a single heading. -/
def bumpHeader (h : HeaderInfo) : HeaderInfo :=
  { h with level := if h.level < 6 then h.level + 1 else h.level }

def tC2 : MDNode :=
  .document (.cons (.heading 2 "sub" .nil) (.cons (.heading 1 "b" .nil) .nil))

/-- The canonical paths present in the file system. -/
def fsKeys (fs : FS) : List String := fs.map Prod.fst

/-- Total number of parsed links across all files: a bound on how many
paths one iteration can push. -/
def totalLinks (fs : FS) : Nat := (fs.map (fun e => e.2.links.length)).sum

/-- How many file-system paths are not yet visited. -/
def unvisitedCount (fs : FS) (v : List String) : Nat :=
  (fsKeys fs).countP (fun p => decide (p ∉ v))

/-- The loop measure: every iteration of `traverseLoop` either pops a
visited path (second summand shrinks) or visits a file-system path
(first summand shrinks by at least the largest possible push). -/
def travMeasure (fs : FS) (s : TravState) : Nat :=
  unvisitedCount fs s.visited * (totalLinks fs + 1) + s.stack.length

def tC5 : MDNode :=
  .document (.cons (.paragraph (.cons (.text "Text") (.cons (.footnoteLink 1) .nil)))
    (.cons (.footnoteList (.cons (.footnote 1 "1" "See more." .nil) .nil)) .nil))

/-- A document whose only footnote contains a markdown link to `./b.md`:
the definition's content subtree holds a structured link node, and its
extracted content text is the raw markdown of that link. -/
def tC6 : MDNode :=
  .document (.cons (.paragraph (.cons (.text "Text") (.cons (.footnoteLink 1) .nil)))
    (.cons (.footnoteList (.cons
      (.footnote 1 "1" "See [b](./b.md)"
        (.cons (.paragraph (.cons (.text "See ")
          (.cons (.link "./b.md" (.cons (.text "b") .nil)) .nil))) .nil)) .nil)) .nil))

/-- The header cache a `FileProcessor` would hold for a target `b.md`
whose level-1 header is not its first header. -/
def hsB : List HeaderInfo := [⟨2, "Sub", "sub"⟩, ⟨1, "B", "b"⟩]

def fhB : String → Option (List HeaderInfo) :=
  fun p => if p = "/s/b.md" then some hsB else none

/-- Stated from the specification's wording (claim C1), for comparison
with `generateTargetAnchor`: when the target's header-rule outcome is
keep-as-is (no synthetic header), the anchor is the leading level-1
header's generated identifier; in every other case it is derived from the
target's filename. -/
def specTargetAnchor (headers : List HeaderInfo) (targetPath : String) : String :=
  if generateFileHeader targetPath headers = none then
    match headers.head? with
    | some h => "#" ++ h.id
    | none => GenerateSectionLink targetPath
  else GenerateSectionLink targetPath

end Catmd

namespace Catmd

theorem sanity_clean_dotdot : goClean ".." = ".." := by rfl

theorem sanity_clean_updir : goClean "a/../../b" = "../b" := by rfl

theorem sanity_clean_abs : goClean "/a/../../b" = "/b" := by rfl

theorem sanity_join : goJoin "/s" "../x.md" = "/x.md" := by rfl

theorem sanity_rel : goRel "/s" "/x.md" = some "../x.md" := by rfl

theorem sanity_rel_parent : goRel "/a/b" "/a" = some ".." := by rfl

theorem sanity_base : goBase "/path/to/document.md" = "document.md" := by rfl

theorem sanity_dir : goDir "/s/sub/doc.md" = "/s/sub" := by rfl

theorem sanity_dir_rel : goDir "a" = "." := by rfl

theorem sanity_internal_dotdot : isInternalLink ".." "/s" = true := by rfl

theorem sanity_internal_sibling : isInternalLink "../other.md" "/s" = false := by rfl

theorem sanity_internal_plain : isInternalLink "b.md" "/s" = true := by rfl

theorem sanity_internal_scheme : isInternalLink "https://x.com" "/s" = false := by rfl

theorem sanity_internal_updir2 : isInternalLink "../.." "/a" = true := by rfl

theorem sanity_resolve : resolveLink "/s/a.md" "b.md#frag" = some "/s/b.md" := by rfl

theorem sanity_resolve_empty : resolveLink "/s/a.md" "#frag" = none := by rfl

theorem sanity_gfh_none : generateFileHeader "/p/a.md" [⟨1, "A", "a"⟩] = none := by rfl

theorem sanity_gfh_notfirst :
    generateFileHeader "/p/b.md" [⟨2, "Sub", "sub"⟩, ⟨1, "B", "b"⟩] = some "# b.md" := by rfl

theorem sanity_fragment : fragmentOf "a.md#x#y" = "#x#y" := by rfl


theorem sanity_traverse_cycle :
    traverseRun fsCycle "/s" "/s/a.md" 10 = some (.ok ["/s/a.md", "/s/b.md"]) := by rfl


theorem sanity_traverse_unreadable :
    traverseRun fsUnreadable "/s" "/s/a.md" 10 =
      some (.error "failed to process file /s/b.md") := by rfl


theorem sanity_traverse_missing :
    traverseRun fsMissing "/s" "/s/a.md" 10 = some (.ok ["/s/a.md", "/s/c.md"]) := by rfl

/-! Header lemmas (claim C2). -/

mutual

theorem extractHeaders_adjust : (t : MDNode) →
    extractHeaders (adjustHeaderLevels t) = (extractHeaders t).map bumpHeader
  | .document cs => by
      simp [adjustHeaderLevels, extractHeaders, extractHeadersList_adjust cs]
  | .heading lvl id cs => by
      simp [adjustHeaderLevels, extractHeaders, extractHeadersList_adjust cs, bumpHeader]
  | .text s => by simp [adjustHeaderLevels, extractHeaders]
  | .paragraph cs => by
      simp [adjustHeaderLevels, extractHeaders, extractHeadersList_adjust cs]
  | .emphasis cs => by
      simp [adjustHeaderLevels, extractHeaders, extractHeadersList_adjust cs]
  | .link d cs => by
      simp [adjustHeaderLevels, extractHeaders, extractHeadersList_adjust cs]
  | .footnoteLink i => by simp [adjustHeaderLevels, extractHeaders]
  | .footnote i r c cs => by
      simp [adjustHeaderLevels, extractHeaders, extractHeadersList_adjust cs]
  | .footnoteList cs => by
      simp [adjustHeaderLevels, extractHeaders, extractHeadersList_adjust cs]

theorem extractHeadersList_adjust : (ts : MDNodes) →
    extractHeadersList (adjustHeaderLevelsList ts) = (extractHeadersList ts).map bumpHeader
  | .nil => by simp [adjustHeaderLevelsList, extractHeadersList]
  | .cons n ns => by
      simp [adjustHeaderLevelsList, extractHeadersList, extractHeaders_adjust n,
        extractHeadersList_adjust ns]

end

mutual

theorem countLevel1_eq : (t : MDNode) →
    countLevel1 t = (extractHeaders t).countP (fun h => decide (h.level = 1))
  | .document cs => by simp [countLevel1, extractHeaders, countLevel1List_eq cs]
  | .heading lvl id cs => by
      simp [countLevel1, extractHeaders, countLevel1List_eq cs, List.countP_cons]
      omega
  | .text s => by simp [countLevel1, extractHeaders]
  | .paragraph cs => by simp [countLevel1, extractHeaders, countLevel1List_eq cs]
  | .emphasis cs => by simp [countLevel1, extractHeaders, countLevel1List_eq cs]
  | .link d cs => by simp [countLevel1, extractHeaders, countLevel1List_eq cs]
  | .footnoteLink i => by simp [countLevel1, extractHeaders]
  | .footnote i r c cs => by simp [countLevel1, extractHeaders, countLevel1List_eq cs]
  | .footnoteList cs => by simp [countLevel1, extractHeaders, countLevel1List_eq cs]

theorem countLevel1List_eq : (ts : MDNodes) →
    countLevel1List ts = (extractHeadersList ts).countP (fun h => decide (h.level = 1))
  | .nil => by simp [countLevel1List, extractHeadersList]
  | .cons n ns => by
      simp [countLevel1List, extractHeadersList, countLevel1_eq n, countLevel1List_eq ns,
        List.countP_append]

end

theorem find?_pos_of_levels {hs : List HeaderInfo} (hlv : ∀ h ∈ hs, 1 ≤ h.level) :
    hs.find? (fun h => 0 < h.level) = hs.head? := by
  cases hs with
  | nil => rfl
  | cons h rest =>
    have hp : 1 ≤ h.level := hlv h (by simp)
    rw [List.find?_cons_of_pos]
    · rfl
    · simp only [decide_eq_true_eq]
      omega

/-- C2: a synthetic filename header is added exactly when the document's
headers are not a single level-1 header sitting first; and every existing
header level is bumped by one (capped at 6, across the whole document)
exactly when a synthetic header is added and at least one level-1 header
exists — in particular, with zero level-1 headers the levels are untouched. -/
theorem headerRuleEngine_correct (t : MDNode) (filename : String)
    (hlv : ∀ h ∈ extractHeaders t, 1 ≤ h.level) :
    ((generateFileHeader filename (extractHeaders t)).isSome = true ↔
      ¬((extractHeaders t).countP (fun h => decide (h.level = 1)) = 1 ∧
        ∃ h1, (extractHeaders t).head? = some h1 ∧ h1.level = 1)) ∧
    extractHeaders
        (headerAdjustStep (generateFileHeader filename (extractHeaders t)).isSome t) =
      (if (generateFileHeader filename (extractHeaders t)).isSome = true ∧
          0 < (extractHeaders t).countP (fun h => decide (h.level = 1))
       then (extractHeaders t).map bumpHeader else extractHeaders t) := by
  constructor
  · rw [generateFileHeader]
    rw [← List.countP_eq_length_filter]
    by_cases hL : (extractHeaders t).countP (fun h => decide (h.level = 1)) = 1
    · simp only [hL, if_neg (by omega : ¬(1 ≠ 1))]
      rw [find?_pos_of_levels hlv]
      cases hh : (extractHeaders t).head? with
      | none =>
        cases hhs : extractHeaders t with
        | nil => rw [hhs] at hL; simp [List.countP_nil] at hL
        | cons a l => rw [hhs] at hh; simp at hh
      | some h1 =>
        by_cases h1l : h1.level = 1
        · simp [h1l, hL]
        · simp [h1l, hL]
    · simp only [if_pos (by omega : (extractHeaders t).countP
        (fun h => decide (h.level = 1)) ≠ 1), Option.isSome_some, true_iff]
      intro hc
      exact hL hc.1
  · rw [headerAdjustStep, countLevel1_eq]
    split
    · exact extractHeaders_adjust t
    · rfl


theorem headerRuleEngine_correct_witness :
    (∀ h ∈ extractHeaders tC2, 1 ≤ h.level) ∧
    (((generateFileHeader "/p/b.md" (extractHeaders tC2)).isSome = true ↔
      ¬((extractHeaders tC2).countP (fun h => decide (h.level = 1)) = 1 ∧
        ∃ h1, (extractHeaders tC2).head? = some h1 ∧ h1.level = 1)) ∧
    extractHeaders
        (headerAdjustStep (generateFileHeader "/p/b.md" (extractHeaders tC2)).isSome tC2) =
      (if (generateFileHeader "/p/b.md" (extractHeaders tC2)).isSome = true ∧
          0 < (extractHeaders tC2).countP (fun h => decide (h.level = 1))
       then (extractHeaders tC2).map bumpHeader else extractHeaders tC2)) :=
  ⟨by decide, headerRuleEngine_correct tC2 "/p/b.md" (by decide)⟩

/-! Traversal lemmas (claims C3, C9, C10). -/

theorem traverseLoop_ok_nodup (fs : FS) (sc : String) :
    ∀ (fuel : Nat) (v st ord order : List String),
      traverseLoop fs sc fuel ⟨v, st, ord⟩ = some (.ok order) →
      ord.Nodup → (∀ p ∈ ord, p ∈ v) → order.Nodup := by
  intro fuel
  induction fuel with
  | zero => intro v st ord order h _ _; simp [traverseLoop] at h
  | succ n ih =>
    intro v st ord order h hnd hsub
    cases st with
    | nil =>
      simp [traverseLoop] at h
      exact h ▸ hnd
    | cons cur rest =>
      simp only [traverseLoop] at h
      by_cases hv : v.contains cur
      · rw [if_pos hv] at h
        exact ih v rest ord order h hnd hsub
      · rw [if_neg hv] at h
        cases hx : extractLinksFromFile fs cur with
        | none => rw [hx] at h; simp at h
        | some links =>
          rw [hx] at h
          have hcv : cur ∉ v := fun hm =>
            hv ((List.elem_iff).mpr hm)
          have hco : cur ∉ ord := fun hm => hcv (hsub cur hm)
          refine ih (cur :: v) _ (ord ++ [cur]) order h ?_ ?_
          · simp [List.nodup_append, hnd, hco]
          · intro p hp
            rcases List.mem_append.mp hp with hp | hp
            · exact List.mem_cons_of_mem _ (hsub p hp)
            · simp at hp
              simp [hp]

/-- C3: no canonical path appears twice in the traversal order returned by
`Traverse`, whatever the document graph (cycles and repeated references
included): a path is marked visited when it is popped, before its links
are examined, so it is appended at most once. -/
theorem traversalOrder_nodup (fs : FS) (scopeDir rootFile : String) (fuel : Nat)
    (order : List String)
    (h : traverseRun fs scopeDir rootFile fuel = some (.ok order)) :
    order.Nodup :=
  traverseLoop_ok_nodup fs scopeDir fuel [] [rootFile] [] order h (by simp) (by simp)

theorem traversalOrder_nodup_witness :
    traverseRun fsCycle "/s" "/s/a.md" 10 = some (.ok ["/s/a.md", "/s/b.md"]) ∧
    List.Nodup ["/s/a.md", "/s/b.md"] :=
  ⟨by rfl, traversalOrder_nodup fsCycle "/s" "/s/a.md" 10 ["/s/a.md", "/s/b.md"] (by rfl)⟩

theorem traverseLoop_ok_extends (fs : FS) (sc : String) :
    ∀ (fuel : Nat) (v st ord order : List String),
      traverseLoop fs sc fuel ⟨v, st, ord⟩ = some (.ok order) → ord <+: order := by
  intro fuel
  induction fuel with
  | zero => intro v st ord order h; simp [traverseLoop] at h
  | succ n ih =>
    intro v st ord order h
    cases st with
    | nil =>
      simp [traverseLoop] at h
      exact h ▸ List.prefix_refl ord
    | cons cur rest =>
      simp only [traverseLoop] at h
      by_cases hv : v.contains cur
      · rw [if_pos hv] at h
        exact ih v rest ord order h
      · rw [if_neg hv] at h
        cases hx : extractLinksFromFile fs cur with
        | none => rw [hx] at h; simp at h
        | some links =>
          rw [hx] at h
          exact (List.prefix_append ord [cur]).trans (ih _ _ _ order h)

/-- C10: a successful `Traverse` returns a non-empty order whose first
element is the root path the traversal was started from, so the
"no files found to process" branch in `run` is unreachable after a
successful traversal. -/
theorem traversal_starts_at_root (fs : FS) (scopeDir rootFile : String) (fuel : Nat)
    (order : List String)
    (h : traverseRun fs scopeDir rootFile fuel = some (.ok order)) :
    order ≠ [] ∧ order.head? = some rootFile := by
  cases fuel with
  | zero => simp [traverseRun, traverseLoop] at h
  | succ n =>
    simp only [traverseRun, traverseLoop] at h
    rw [if_neg (by simp)] at h
    cases hx : extractLinksFromFile fs rootFile with
    | none => rw [hx] at h; simp at h
    | some links =>
      rw [hx] at h
      have hpre : [rootFile] <+: order := by
        have := traverseLoop_ok_extends fs scopeDir n [rootFile] _ ([] ++ [rootFile]) order h
        simpa using this
      obtain ⟨tail, rfl⟩ := hpre
      simp

theorem traversal_starts_at_root_witness :
    traverseRun fsCycle "/s" "/s/a.md" 10 = some (.ok ["/s/a.md", "/s/b.md"]) ∧
    (["/s/a.md", "/s/b.md"] ≠ [] ∧ ["/s/a.md", "/s/b.md"].head? = some "/s/a.md") :=
  ⟨by rfl, traversal_starts_at_root fsCycle "/s" "/s/a.md" 10 ["/s/a.md", "/s/b.md"] (by rfl)⟩

/-! Termination of the traversal (claim C9). -/


theorem countP_notmem_cons_le (keys v : List String) (c : String) :
    keys.countP (fun p => decide (p ∉ c :: v)) ≤ keys.countP (fun p => decide (p ∉ v)) := by
  refine List.countP_mono_left ?_
  intro x _ hx
  simp only [decide_eq_true_eq, List.mem_cons, not_or] at hx ⊢
  exact hx.2

theorem countP_notmem_cons_lt (keys v : List String) (c : String)
    (hc : c ∈ keys) (hv : c ∉ v) :
    keys.countP (fun p => decide (p ∉ c :: v)) < keys.countP (fun p => decide (p ∉ v)) := by
  induction keys with
  | nil => simp at hc
  | cons k ks ih =>
    rw [List.countP_cons, List.countP_cons]
    have hle : ks.countP (fun p => decide (p ∉ c :: v)) ≤
        ks.countP (fun p => decide (p ∉ v)) := countP_notmem_cons_le ks v c
    rcases List.mem_cons.mp hc with rfl | hk
    · have h1 : (decide (c ∉ c :: v)) = false := by simp
      have h2 : (decide (c ∉ v)) = true := by simpa using hv
      rw [h1, h2, if_neg (by simp : ¬(false = true)), if_pos rfl]
      omega
    · have hpoint : (if decide (k ∉ c :: v) = true then 1 else 0) ≤
          (if decide (k ∉ v) = true then 1 else 0) := by
        by_cases h1 : k ∈ c :: v
        · simp [h1]
        · have h2 : k ∉ v := fun hm => h1 (List.mem_cons_of_mem _ hm)
          simp [h1, h2]
      have := ih hk
      omega

theorem mem_keys_of_fsLookup {fs : FS} {p : String} {d : TDoc}
    (h : fsLookup fs p = some d) : p ∈ fsKeys fs := by
  rw [fsLookup] at h
  obtain ⟨l₁, l₂, hsplit, -⟩ := List.lookup_eq_some_iff.mp h
  have hm : (p, d) ∈ fs.reverse := by rw [hsplit]; simp
  rw [List.mem_reverse] at hm
  exact List.mem_map.mpr ⟨(p, d), hm, rfl⟩

theorem mem_of_fsLookup {fs : FS} {p : String} {d : TDoc}
    (h : fsLookup fs p = some d) : (p, d) ∈ fs := by
  rw [fsLookup] at h
  obtain ⟨l₁, l₂, hsplit, -⟩ := List.lookup_eq_some_iff.mp h
  have hm : (p, d) ∈ fs.reverse := by rw [hsplit]; simp
  rwa [List.mem_reverse] at hm

theorem extract_length_le {fs : FS} {p : String} {links : List String}
    (h : extractLinksFromFile fs p = some links) : links.length ≤ totalLinks fs := by
  rw [extractLinksFromFile] at h
  split at h
  · exact absurd h (by simp)
  · rename_i d hl
    split at h
    · rename_i hr
      have hlen : links.length ≤ d.links.length := by
        cases h
        exact List.length_filterMap_le _ _
      have hmem : d.links.length ∈ fs.map (fun e => e.2.links.length) :=
        List.mem_map.mpr ⟨(p, d), mem_of_fsLookup hl, rfl⟩
      have hsum : d.links.length ≤ totalLinks fs :=
        List.single_le_sum (fun x _ => Nat.zero_le x) _ hmem
      omega
    · exact absurd h (by simp)

theorem traverseLoop_total (fs : FS) (sc : String) :
    ∀ (k : Nat) (s : TravState), travMeasure fs s ≤ k →
      ∃ n r, traverseLoop fs sc n s = some r := by
  intro k
  induction k using Nat.strong_induction_on with
  | _ k ih =>
    intro s hm
    obtain ⟨v, st, ord⟩ := s
    cases st with
    | nil => exact ⟨1, .ok ord, by simp [traverseLoop]⟩
    | cons cur rest =>
      have hkpos : 1 ≤ k := by
        have : 1 ≤ travMeasure fs ⟨v, cur :: rest, ord⟩ := by
          simp [travMeasure]
          omega
        omega
      by_cases hv : v.contains cur
      · have hlt : travMeasure fs ⟨v, rest, ord⟩ < k := by
          have : travMeasure fs ⟨v, rest, ord⟩ < travMeasure fs ⟨v, cur :: rest, ord⟩ := by
            simp [travMeasure]
          omega
        obtain ⟨n, r, hn⟩ := ih _ hlt ⟨v, rest, ord⟩ (Nat.le_refl _)
        refine ⟨n + 1, r, ?_⟩
        simp only [traverseLoop, if_pos hv]
        exact hn
      · cases hx : extractLinksFromFile fs cur with
        | none =>
          refine ⟨1, .error ("failed to process file " ++ cur), ?_⟩
          simp only [traverseLoop, if_neg hv, hx]
        | some links =>
          have hd : ∃ d, fsLookup fs cur = some d := by
            rw [extractLinksFromFile] at hx
            cases hl : fsLookup fs cur with
            | none => rw [hl] at hx; simp at hx
            | some d => exact ⟨d, rfl⟩
          obtain ⟨d, hl⟩ := hd
          have hcur : cur ∈ fsKeys fs := mem_keys_of_fsLookup hl
          have hcv : cur ∉ v := fun hm' => hv ((List.elem_iff).mpr hm')
          have h1 : unvisitedCount fs (cur :: v) < unvisitedCount fs v :=
            countP_notmem_cons_lt (fsKeys fs) v cur hcur hcv
          have h2 : (pushLinks sc (cur :: v) links).length ≤ totalLinks fs :=
            Nat.le_trans (List.length_filter_le _ _) (extract_length_le hx)
          have hlt : travMeasure fs
              ⟨cur :: v, pushLinks sc (cur :: v) links ++ rest, ord ++ [cur]⟩ <
              travMeasure fs ⟨v, cur :: rest, ord⟩ := by
            simp only [travMeasure, List.length_append, List.length_cons]
            have hmul : (unvisitedCount fs (cur :: v) + 1) * (totalLinks fs + 1) ≤
                unvisitedCount fs v * (totalLinks fs + 1) :=
              Nat.mul_le_mul_right _ h1
            rw [Nat.add_mul, Nat.one_mul] at hmul
            omega
          have hlt' : travMeasure fs
              ⟨cur :: v, pushLinks sc (cur :: v) links ++ rest, ord ++ [cur]⟩ < k :=
            Nat.lt_of_lt_of_le hlt hm
          obtain ⟨n, r, hn⟩ := ih _ hlt' _ (Nat.le_refl _)
          refine ⟨n + 1, r, ?_⟩
          simp only [traverseLoop, if_neg hv, hx]
          exact hn

/-- C9: `Traverse` terminates on every finite file system, cyclic link
graphs included — some fuel makes the loop finish, because the stack only
grows by file-system paths not yet visited and the visited set is bounded
by the files on disk. -/
theorem traverse_terminates (fs : FS) (scopeDir rootFile : String) :
    ∃ fuel r, traverseRun fs scopeDir rootFile fuel = some r :=
  traverseLoop_total fs scopeDir
    (travMeasure fs ⟨[], [rootFile], []⟩) ⟨[], [rootFile], []⟩ (Nat.le_refl _)

/-! Error behaviour of the traversal (claim C7). -/

/-- C7 counterexample: when a queued link target exists on disk but cannot
be read (`/s/b.md` here), `Traverse` does not skip it and continue — it
returns an error, aborting the whole run. -/
theorem unreadable_file_aborts_traversal :
    traverseRun fsUnreadable "/s" "/s/a.md" 10 =
      some (.error "failed to process file /s/b.md") := by rfl

theorem extract_targets_exist {fs : FS} {p : String} {links : List String}
    (h : extractLinksFromFile fs p = some links) :
    ∀ q ∈ links, fileExists fs q = true := by
  rw [extractLinksFromFile] at h
  split at h
  · exact absurd h (by simp)
  · split at h
    · cases h
      intro q hq
      obtain ⟨l, -, hl⟩ := List.mem_filterMap.mp hq
      split at hl
      · split at hl
        · split at hl
          · cases hl
            assumption
          · exact absurd hl (by simp)
        · exact absurd hl (by simp)
      · exact absurd hl (by simp)
    · exact absurd h (by simp)

theorem traverseLoop_ok_of_readable (fs : FS) (sc : String)
    (hall : ∀ p d, (p, d) ∈ fs → d.readable = true) :
    ∀ (fuel : Nat) (v st ord : List String) (r : Except String (List String)),
      (∀ p ∈ st, fileExists fs p = true) →
      traverseLoop fs sc fuel ⟨v, st, ord⟩ = some r →
      ∃ order, r = .ok order := by
  intro fuel
  induction fuel with
  | zero => intro v st ord r _ h; simp [traverseLoop] at h
  | succ n ih =>
    intro v st ord r hst h
    cases st with
    | nil =>
      simp [traverseLoop] at h
      exact ⟨ord, h.symm⟩
    | cons cur rest =>
      simp only [traverseLoop] at h
      by_cases hv : v.contains cur
      · rw [if_pos hv] at h
        exact ih v rest ord r (fun p hp => hst p (List.mem_cons_of_mem _ hp)) h
      · rw [if_neg hv] at h
        have hex : fileExists fs cur = true := hst cur (by simp)
        obtain ⟨d, hd⟩ := Option.isSome_iff_exists.mp (by rwa [fileExists] at hex)
        have hr : d.readable = true := hall cur d (mem_of_fsLookup hd)
        cases hx : extractLinksFromFile fs cur with
        | none =>
          rw [extractLinksFromFile, hd] at hx
          simp [hr] at hx
        | some links =>
          rw [hx] at h
          refine ih (cur :: v) _ (ord ++ [cur]) r ?_ h
          intro p hp
          rcases List.mem_append.mp hp with hp | hp
          · exact extract_targets_exist hx p (List.mem_of_mem_filter hp)
          · exact hst p (List.mem_cons_of_mem _ hp)

/-- C7 amended: a link whose resolved target is missing on disk is
silently dropped at discovery and traversal continues, and the parser
interface cannot report a parse failure; but an existing, unreadable
queued file aborts the whole traversal with an error (it is not skipped).
Consequently, when the root exists and every file on disk is readable,
`Traverse` never returns an error, whatever missing targets the documents
link to. -/
theorem traverse_ok_of_all_readable (fs : FS) (scopeDir rootFile : String) (fuel : Nat)
    (r : Except String (List String))
    (hroot : fileExists fs rootFile = true)
    (hall : ∀ p d, (p, d) ∈ fs → d.readable = true)
    (h : traverseRun fs scopeDir rootFile fuel = some r) :
    ∃ order, r = .ok order :=
  traverseLoop_ok_of_readable fs scopeDir hall fuel [] [rootFile] [] r
    (fun p hp => by simp at hp; subst hp; exact hroot) h

theorem traverse_ok_of_all_readable_witness :
    fileExists fsMissing "/s/a.md" = true ∧
    (∀ p d, (p, d) ∈ fsMissing → d.readable = true) ∧
    ∃ order, (Except.ok ["/s/a.md", "/s/c.md"] : Except String (List String)) = .ok order :=
  ⟨by rfl, by intro p d hm; simp [fsMissing, Prod.ext_iff] at hm; rcases hm with ⟨-, rfl⟩ | ⟨-, rfl⟩ <;> rfl,
    traverse_ok_of_all_readable fsMissing "/s" "/s/a.md" 10 (.ok ["/s/a.md", "/s/c.md"])
      (by rfl) (by intro p d hm; simp [fsMissing, Prod.ext_iff] at hm; rcases hm with ⟨-, rfl⟩ | ⟨-, rfl⟩ <;> rfl) (by rfl)⟩

/-! Link rewriting touches only qualifying destinations (claim C8). -/

theorem hash_append_starts_hash (s f : String) :
    goStartsWith (("#" ++ s) ++ f) "#" = true := by
  have hdata : (("#" ++ s) ++ f).data = '#' :: (s.data ++ f.data) := rfl
  rw [goStartsWith, hdata]
  simp [List.isPrefixOf]

theorem generateTargetAnchor_starts_hash (fh : String → Option (List HeaderInfo))
    (p f : String) :
    goStartsWith (generateTargetAnchor fh p ++ f) "#" = true := by
  rw [generateTargetAnchor]
  split
  · rw [GenerateSectionLink]
    exact hash_append_starts_hash _ f
  · split
    · exact hash_append_starts_hash _ f
    · rw [GenerateSectionLink]
      exact hash_append_starts_hash _ f

mutual

theorem eraseDests_transform (visited : String → Bool)
    (fh : String → Option (List HeaderInfo)) (filename : String) : (t : MDNode) →
    eraseDests (transformLinksNode visited fh filename t) = eraseDests t
  | .document cs => by
      simp [transformLinksNode, eraseDests, eraseDestsList_transform visited fh filename cs]
  | .heading lvl id cs => by
      simp [transformLinksNode, eraseDests, eraseDestsList_transform visited fh filename cs]
  | .text s => by simp [transformLinksNode, eraseDests]
  | .paragraph cs => by
      simp [transformLinksNode, eraseDests, eraseDestsList_transform visited fh filename cs]
  | .emphasis cs => by
      simp [transformLinksNode, eraseDests, eraseDestsList_transform visited fh filename cs]
  | .link dest cs => by
      simp [transformLinksNode, eraseDests, eraseDestsList_transform visited fh filename cs]
  | .footnoteLink i => by simp [transformLinksNode, eraseDests]
  | .footnote i r c cs => by
      simp [transformLinksNode, eraseDests, eraseDestsList_transform visited fh filename cs]
  | .footnoteList cs => by
      simp [transformLinksNode, eraseDests, eraseDestsList_transform visited fh filename cs]

theorem eraseDestsList_transform (visited : String → Bool)
    (fh : String → Option (List HeaderInfo)) (filename : String) : (ts : MDNodes) →
    eraseDestsList (transformLinksList visited fh filename ts) = eraseDestsList ts
  | .nil => by simp [transformLinksList, eraseDestsList]
  | .cons n ns => by
      simp [transformLinksList, eraseDestsList, eraseDests_transform visited fh filename n,
        eraseDestsList_transform visited fh filename ns]

end

theorem rewritten_dest_rel (visited : String → Bool)
    (fh : String → Option (List HeaderInfo)) (filename dest : String) :
    (if qualifiesForRewrite visited filename dest = true
      then goStartsWith
        (if fpIsInternalLink dest then
          match resolveLink filename dest with
          | some resolvedPath =>
            if visited resolvedPath then
              generateTargetAnchor fh resolvedPath ++ fragmentOf dest
            else dest
          | none => dest
        else dest) "#" = true
      else (if fpIsInternalLink dest then
          match resolveLink filename dest with
          | some resolvedPath =>
            if visited resolvedPath then
              generateTargetAnchor fh resolvedPath ++ fragmentOf dest
            else dest
          | none => dest
        else dest) = dest) := by
  by_cases h1 : fpIsInternalLink dest = true
  · cases h2 : resolveLink filename dest with
    | none => simp [qualifiesForRewrite, h1, h2]
    | some p =>
      by_cases h3 : visited p = true
      · have hq : qualifiesForRewrite visited filename dest = true := by
          simp [qualifiesForRewrite, h1, h2, h3]
        rw [if_pos hq, if_pos h1]
        show goStartsWith
          (if visited p = true then generateTargetAnchor fh p ++ fragmentOf dest else dest)
          "#" = true
        rw [if_pos h3]
        exact generateTargetAnchor_starts_hash fh p (fragmentOf dest)
      · have hq : qualifiesForRewrite visited filename dest = false := by
          simp [qualifiesForRewrite, h2]
          intro
          simpa using h3
        rw [hq]
        simp [h1, h2, h3]
  · have hq : qualifiesForRewrite visited filename dest = false := by
      simp [qualifiesForRewrite]
      intro h
      exact absurd h h1
    rw [hq]
    simp [h1]

mutual

theorem destsOf_transform (visited : String → Bool)
    (fh : String → Option (List HeaderInfo)) (filename : String) : (t : MDNode) →
    List.Forall₂
      (fun old new => if qualifiesForRewrite visited filename old = true
        then goStartsWith new "#" = true else new = old)
      (destsOf t) (destsOf (transformLinksNode visited fh filename t))
  | .document cs => by
      simpa [transformLinksNode, destsOf] using
        destsOfList_transform visited fh filename cs
  | .heading lvl id cs => by
      simpa [transformLinksNode, destsOf] using
        destsOfList_transform visited fh filename cs
  | .text s => by simp [transformLinksNode, destsOf]
  | .paragraph cs => by
      simpa [transformLinksNode, destsOf] using
        destsOfList_transform visited fh filename cs
  | .emphasis cs => by
      simpa [transformLinksNode, destsOf] using
        destsOfList_transform visited fh filename cs
  | .link dest cs => by
      simp only [transformLinksNode, destsOf]
      refine List.Forall₂.cons ?_ (destsOfList_transform visited fh filename cs)
      exact rewritten_dest_rel visited fh filename dest
  | .footnoteLink i => by simp [transformLinksNode, destsOf]
  | .footnote i r c cs => by
      simpa [transformLinksNode, destsOf] using
        destsOfList_transform visited fh filename cs
  | .footnoteList cs => by
      simpa [transformLinksNode, destsOf] using
        destsOfList_transform visited fh filename cs

theorem destsOfList_transform (visited : String → Bool)
    (fh : String → Option (List HeaderInfo)) (filename : String) : (ts : MDNodes) →
    List.Forall₂
      (fun old new => if qualifiesForRewrite visited filename old = true
        then goStartsWith new "#" = true else new = old)
      (destsOfList ts) (destsOfList (transformLinksList visited fh filename ts))
  | .nil => by simp [transformLinksList, destsOfList]
  | .cons n ns => by
      simp only [transformLinksList, destsOfList]
      exact List.rel_append (destsOf_transform visited fh filename n)
        (destsOfList_transform visited fh filename ns)

end

/-- C8: `transformLinks` changes nothing but link destinations (the
dest-erased trees coincide), and destination-wise, a link that is
internal, resolvable and resolved into the visited traversal order gets a
'#'-prefixed destination while every other link keeps its destination
byte-identical. -/
theorem linkRewrite_frame (visited : String → Bool)
    (fh : String → Option (List HeaderInfo)) (filename : String) (t : MDNode) :
    eraseDests (transformLinksNode visited fh filename t) = eraseDests t ∧
    List.Forall₂
      (fun old new => if qualifiesForRewrite visited filename old = true
        then goStartsWith new "#" = true else new = old)
      (destsOf t) (destsOf (transformLinksNode visited fh filename t)) :=
  ⟨eraseDests_transform visited fh filename t, destsOf_transform visited fh filename t⟩

/-! Footnote inlining removes every trace of footnote syntax (claim C5). -/

mutual

theorem inlineNode_count (cm : String → Option String) (iid : Nat → String) :
    (n : MDNode) →
    (∀ idx ∈ footnoteLinkIndices n, (cm (iid idx)).isSome = true) →
    isFootnoteCarrier n = false →
    footnoteNodeCount (inlineNode cm iid n) = 0
  | .document cs, hdef, _ => by
      simp only [inlineNode, footnoteNodeCount]
      exact inlineChildren_count cm iid cs (by simpa [footnoteLinkIndices] using hdef)
  | .heading lvl id cs, hdef, _ => by
      simp only [inlineNode, footnoteNodeCount]
      exact inlineChildren_count cm iid cs (by simpa [footnoteLinkIndices] using hdef)
  | .text s, _, _ => by simp [inlineNode, footnoteNodeCount]
  | .paragraph cs, hdef, _ => by
      simp only [inlineNode, footnoteNodeCount]
      exact inlineChildren_count cm iid cs (by simpa [footnoteLinkIndices] using hdef)
  | .emphasis cs, hdef, _ => by
      simp only [inlineNode, footnoteNodeCount]
      exact inlineChildren_count cm iid cs (by simpa [footnoteLinkIndices] using hdef)
  | .link d cs, hdef, _ => by
      simp only [inlineNode, footnoteNodeCount]
      exact inlineChildren_count cm iid cs (by simpa [footnoteLinkIndices] using hdef)
  | .footnoteLink idx, hdef, _ => by
      have h : (cm (iid idx)).isSome = true := hdef idx (by simp [footnoteLinkIndices])
      obtain ⟨content, hc⟩ := Option.isSome_iff_exists.mp h
      simp [inlineNode, hc, footnoteNodeCount]
  | .footnote i r c cs, _, hcarrier => by simp [isFootnoteCarrier] at hcarrier
  | .footnoteList cs, _, hcarrier => by simp [isFootnoteCarrier] at hcarrier

theorem inlineChildren_count (cm : String → Option String) (iid : Nat → String) :
    (ts : MDNodes) →
    (∀ idx ∈ footnoteLinkIndicesList ts, (cm (iid idx)).isSome = true) →
    footnoteNodeCountList (inlineChildren cm iid ts) = 0
  | .nil, _ => by simp [inlineChildren, footnoteNodeCountList]
  | .cons n ns, hdef => by
      have hns : ∀ idx ∈ footnoteLinkIndicesList ns, (cm (iid idx)).isSome = true :=
        fun idx hi => hdef idx (by simp [footnoteLinkIndicesList, hi])
      have hn : ∀ idx ∈ footnoteLinkIndices n, (cm (iid idx)).isSome = true :=
        fun idx hi => hdef idx (by simp [footnoteLinkIndicesList, hi])
      cases n with
      | footnote i r c cs =>
          simp only [inlineChildren]
          exact inlineChildren_count cm iid ns hns
      | footnoteList cs =>
          simp only [inlineChildren]
          exact inlineChildren_count cm iid ns hns
      | document cs =>
          simp only [inlineChildren, footnoteNodeCountList]
          rw [inlineNode_count cm iid _ hn (by simp [isFootnoteCarrier]),
            inlineChildren_count cm iid ns hns]
      | heading lvl id cs =>
          simp only [inlineChildren, footnoteNodeCountList]
          rw [inlineNode_count cm iid _ hn (by simp [isFootnoteCarrier]),
            inlineChildren_count cm iid ns hns]
      | text s =>
          simp only [inlineChildren, footnoteNodeCountList]
          rw [inlineNode_count cm iid _ hn (by simp [isFootnoteCarrier]),
            inlineChildren_count cm iid ns hns]
      | paragraph cs =>
          simp only [inlineChildren, footnoteNodeCountList]
          rw [inlineNode_count cm iid _ hn (by simp [isFootnoteCarrier]),
            inlineChildren_count cm iid ns hns]
      | emphasis cs =>
          simp only [inlineChildren, footnoteNodeCountList]
          rw [inlineNode_count cm iid _ hn (by simp [isFootnoteCarrier]),
            inlineChildren_count cm iid ns hns]
      | link d cs =>
          simp only [inlineChildren, footnoteNodeCountList]
          rw [inlineNode_count cm iid _ hn (by simp [isFootnoteCarrier]),
            inlineChildren_count cm iid ns hns]
      | footnoteLink idx =>
          simp only [inlineChildren, footnoteNodeCountList]
          rw [inlineNode_count cm iid _ hn (by simp [isFootnoteCarrier]),
            inlineChildren_count cm iid ns hns]

end

/-- C5: on a parsed document whose footnote references all have
definitions, `inlineFootnotes` leaves no footnote syntax at all in the
tree; position-wise, a defined reference in any child list becomes exactly
the plain text span " (content)", and footnote definitions and the
footnote list container are deleted from every child list. -/
theorem footnoteInlining_complete (cs : MDNodes)
    (hdef : AllRefsDefined (.document cs)) :
    footnoteNodeCount (inlineFootnotes (.document cs)) = 0 ∧
    (∀ (idx : Nat) (content : String) (rest : MDNodes),
      mapLookupLast (extractFootnotes (.document cs))
          (indexToIDOf (.document cs) idx) = some content →
      inlineChildren (mapLookupLast (extractFootnotes (.document cs)))
          (indexToIDOf (.document cs)) (.cons (.footnoteLink idx) rest) =
        .cons (.text (" (" ++ content ++ ")"))
          (inlineChildren (mapLookupLast (extractFootnotes (.document cs)))
            (indexToIDOf (.document cs)) rest)) ∧
    (∀ (i : Nat) (r c : String) (ds rest : MDNodes),
      inlineChildren (mapLookupLast (extractFootnotes (.document cs)))
          (indexToIDOf (.document cs)) (.cons (.footnote i r c ds) rest) =
        inlineChildren (mapLookupLast (extractFootnotes (.document cs)))
          (indexToIDOf (.document cs)) rest) ∧
    (∀ (ds rest : MDNodes),
      inlineChildren (mapLookupLast (extractFootnotes (.document cs)))
          (indexToIDOf (.document cs)) (.cons (.footnoteList ds) rest) =
        inlineChildren (mapLookupLast (extractFootnotes (.document cs)))
          (indexToIDOf (.document cs)) rest) := by
  refine ⟨?_, ?_, ?_, ?_⟩
  · exact inlineNode_count _ _ (.document cs) hdef (by simp [isFootnoteCarrier])
  · intro idx content rest hc
    simp [inlineChildren, inlineNode, hc]
  · intro i r c ds rest
    simp [inlineChildren]
  · intro ds rest
    simp [inlineChildren]


theorem footnoteInlining_complete_witness :
    AllRefsDefined tC5 ∧
    footnoteNodeCount (inlineFootnotes tC5) = 0 :=
  ⟨by unfold AllRefsDefined; decide,
    (footnoteInlining_complete
      (.cons (.paragraph (.cons (.text "Text") (.cons (.footnoteLink 1) .nil)))
        (.cons (.footnoteList (.cons (.footnote 1 "1" "See more." .nil) .nil)) .nil))
      (by unfold AllRefsDefined; decide)).1⟩

/-! Footnote content is flattened to plain text (claim C6). -/


/-- C6 fails on the code: `inlineFootnotes` substitutes the footnote's
*content string*, so the link inside the footnote becomes raw text inside
the parenthetical span, and the subsequent link-rewriting pass (run here
with every file visited) finds no link node left to rewrite — the
document goes from one link destination ("./b.md") to none, instead of
keeping a structured link for the Anchor Resolver. -/
theorem footnote_link_flattened :
    destsOf tC6 = ["./b.md"] ∧
    transformLinksNode (fun _ => true) (fun _ => none) "/s/a.md" (inlineFootnotes tC6) =
      .document (.cons (.paragraph (.cons (.text "Text")
        (.cons (.text " (See [b](./b.md))") .nil))) .nil) ∧
    destsOf (transformLinksNode (fun _ => true) (fun _ => none) "/s/a.md"
      (inlineFootnotes tC6)) = [] :=
  ⟨by rfl, by rfl, by rfl⟩

/-! The anchor of a rewritten link (claim C1). -/




/-- C1 counterexample: for a target whose single level-1 header is not
first (header-rule outcome synthesize-and-demote), the specification says
the anchor is the filename-derived "#b.md", but the code uses the first
level-1 header's identifier "#b" — also visible on a whole rewritten
link node. -/
theorem anchor_ignores_header_outcome :
    generateTargetAnchor fhB "/s/b.md" = "#b" ∧
    specTargetAnchor hsB "/s/b.md" = "#b.md" ∧
    generateTargetAnchor fhB "/s/b.md" ≠ specTargetAnchor hsB "/s/b.md" ∧
    transformLinksNode (fun p => p == "/s/b.md") fhB "/s/a.md" (.link "b.md" .nil) =
      .link "#b" .nil :=
  ⟨by rfl, by rfl, by decide, by rfl⟩

/-- C1 amended: for every internal link that resolves to a visited target,
the rewritten destination is the anchor of the *first level-1 header* of
the target's cached header list whenever one exists anywhere in the list —
regardless of the target's header-rule outcome — and the filename-derived
anchor only when the cache has no level-1 header; the original fragment is
re-attached after the anchor. -/
theorem targetAnchor_uses_first_h1 (visited : String → Bool)
    (fh : String → Option (List HeaderInfo)) (filename dest p : String)
    (hs : List HeaderInfo) (cs : MDNodes)
    (h1 : fpIsInternalLink dest = true)
    (h2 : resolveLink filename dest = some p)
    (h3 : visited p = true)
    (h4 : fh p = some hs) :
    transformLinksNode visited fh filename (.link dest cs) =
      .link ((match hs.find? (fun h => h.level = 1) with
              | some h => "#" ++ h.id
              | none => "#" ++ goBase p) ++ fragmentOf dest)
        (transformLinksList visited fh filename cs) := by
  simp only [transformLinksNode, h1, if_true, h2, h3, generateTargetAnchor, h4,
    GenerateSectionLink]

theorem targetAnchor_uses_first_h1_witness :
    fpIsInternalLink "b.md#frag" = true ∧
    resolveLink "/s/a.md" "b.md#frag" = some "/s/b.md" ∧
    (fun q => q == "/s/b.md") "/s/b.md" = true ∧
    fhB "/s/b.md" = some hsB ∧
    transformLinksNode (fun q => q == "/s/b.md") fhB "/s/a.md" (.link "b.md#frag" .nil) =
      .link ((match hsB.find? (fun h => h.level = 1) with
              | some h => "#" ++ h.id
              | none => "#" ++ goBase "/s/b.md") ++ fragmentOf "b.md#frag")
        (transformLinksList (fun q => q == "/s/b.md") fhB "/s/a.md" .nil) :=
  ⟨by rfl, by rfl, by rfl, by rfl,
    targetAnchor_uses_first_h1 (fun q => q == "/s/b.md") fhB "/s/a.md" "b.md#frag"
      "/s/b.md" hsB .nil (by rfl) (by rfl) (by rfl) (by rfl)⟩

/-! Link classification (claim C4). -/

/-- C4 counterexample: classification neither resolves against the current
document's directory nor matches the boundary rule.  The destination ".."
(resolving to the scope's parent, outside the boundary) is classified
internal; the destination "../other.md" written in a document one level
below the scope (resolving to a file inside the boundary) is classified
external, because the code re-resolves against the scope directory
itself. -/
theorem classification_differs_from_boundary_rule :
    isInternalLink ".." "/s" = true ∧
    specClassify ".." "/s/doc.md" "/s" = false ∧
    isInternalLink "../other.md" "/s" = false ∧
    specClassify "../other.md" "/s/sub/doc.md" "/s" = true :=
  ⟨by rfl, by rfl, by rfl, by rfl⟩

theorem splitChars_ne_nil (cs : List Char) : splitChars cs ≠ [] := by
  cases cs with
  | nil => simp [splitChars]
  | cons c cs =>
    rw [splitChars]
    cases h : splitChars cs with
    | nil => simp
    | cons a t =>
      by_cases hc : c = '/' <;> simp [hc]

theorem splitChars_no_slash (cs : List Char) : ∀ c ∈ splitChars cs, '/' ∉ c := by
  induction cs with
  | nil => intro c hc; simp [splitChars] at hc; simp [hc]
  | cons a cs ih =>
    intro c hc
    cases h : splitChars cs with
    | nil => exact absurd h (splitChars_ne_nil cs)
    | cons b t =>
      have hsplit : splitChars (a :: cs) =
          if a = '/' then [] :: b :: t else (a :: b) :: t := by
        rw [splitChars, h]
      rw [hsplit] at hc
      by_cases ha : a = '/'
      · rw [if_pos ha] at hc
        rcases List.mem_cons.mp hc with rfl | hc
        · simp
        · exact ih c (h ▸ hc)
      · rw [if_neg ha] at hc
        rcases List.mem_cons.mp hc with rfl | hc
        · intro hmem
          rcases List.mem_cons.mp hmem with rfl | hmem
          · exact ha rfl
          · exact ih b (h ▸ List.mem_cons_self b t) hmem
        · exact ih c (h ▸ List.mem_cons_of_mem b hc)

theorem splitChars_slash_cons (x : List Char) :
    splitChars ('/' :: x) = [] :: splitChars x := by
  rw [splitChars]
  cases h : splitChars x with
  | nil => exact absurd h (splitChars_ne_nil x)
  | cons a t => simp

theorem splitChars_append (xs ys : List Char) :
    splitChars (xs ++ '/' :: ys) = splitChars xs ++ splitChars ys := by
  induction xs with
  | nil =>
    rw [List.nil_append, splitChars_slash_cons]
    rfl
  | cons x xs ih =>
    have hx : splitChars (x :: (xs ++ '/' :: ys)) =
        match splitChars (xs ++ '/' :: ys) with
        | [] => [[x]]
        | h :: t => if x = '/' then [] :: h :: t else (x :: h) :: t := rfl
    cases h0 : splitChars xs with
    | nil => exact absurd h0 (splitChars_ne_nil xs)
    | cons b t0 =>
      rw [List.cons_append, hx, ih, h0]
      by_cases hxs : x = '/'
      · simp [hxs, splitChars, h0]
      · simp [hxs, splitChars, h0]

theorem splitChars_of_no_slash (c : List Char) (hc : '/' ∉ c) : splitChars c = [c] := by
  induction c with
  | nil => rfl
  | cons a c ih =>
    have ha : a ≠ '/' := fun h => hc (h ▸ List.mem_cons_self a c)
    have hc' : '/' ∉ c := fun h => hc (List.mem_cons_of_mem a h)
    rw [splitChars, ih hc']
    simp [ha]

theorem splitChars_intercalate (l : List (List Char)) (hl : ∀ c ∈ l, '/' ∉ c)
    (hne : l ≠ []) : splitChars (intercalateChars l) = l := by
  induction l with
  | nil => exact absurd rfl hne
  | cons c l ih =>
    cases l with
    | nil =>
      rw [intercalateChars, splitChars_of_no_slash c (hl c (by simp))]
    | cons c' rest =>
      have hi : intercalateChars (c :: c' :: rest) =
          c ++ '/' :: intercalateChars (c' :: rest) := rfl
      rw [hi, splitChars_append,
        splitChars_of_no_slash c (hl c (by simp)),
        ih (fun x hx => hl x (List.mem_cons_of_mem c hx)) (List.cons_ne_nil c' rest)]
      rfl

theorem cleanStep_of_valid (abs : Bool) (acc : List (List Char)) (c : List Char)
    (hc : ValidComp c) : cleanStep abs acc c = c :: acc := by
  obtain ⟨h1, h2, h3, -⟩ := hc
  rw [cleanStep.eq_def, if_neg (by simp [h1, h2]), if_neg h3]

theorem foldl_cleanStep_valid (abs : Bool) : ∀ (l : List (List Char)), ValidComps l →
    ∀ acc, List.foldl (cleanStep abs) acc l = l.reverse ++ acc
  | [], _, acc => by simp
  | c :: cs, hl, acc => by
      rw [List.foldl_cons, cleanStep_of_valid abs acc c (hl c (by simp)),
        foldl_cleanStep_valid abs cs (fun x hx => hl x (List.mem_cons_of_mem c hx)) (c :: acc)]
      simp

theorem cleanStep_dotdot_abs (acc : List (List Char)) (hacc : dotdot ∉ acc) :
    cleanStep true acc dotdot = acc.tail := by
  rw [cleanStep.eq_def, if_neg (by simp [dotdot]), if_pos rfl]
  cases acc with
  | nil => rfl
  | cons a rest =>
    show (if a = dotdot then dotdot :: a :: rest else rest) = (a :: rest).tail
    rw [if_neg (show ¬(a = dotdot) from
      fun h => hacc (h ▸ List.mem_cons_self a rest))]
    rfl

theorem foldl_cleanStep_replicate : ∀ (k : Nat) (r : List (List Char)), dotdot ∉ r →
    List.foldl (cleanStep true) r (List.replicate k dotdot) = r.drop k
  | 0, r, _ => by simp
  | k + 1, r, hr => by
      rw [List.replicate_succ, List.foldl_cons, cleanStep_dotdot_abs r hr,
        foldl_cleanStep_replicate k r.tail (fun h => hr (List.mem_of_mem_tail h))]
      cases r <;> simp

theorem cleanComps_valid_id (abs : Bool) (sc : List (List Char)) (hsc : ValidComps sc) :
    cleanComps abs sc = sc := by
  rw [cleanComps, foldl_cleanStep_valid abs sc hsc []]
  simp

theorem absCompsOf_mkAbs (sc : List (List Char)) (hsc : ValidComps sc) :
    absCompsOf (mkAbsPath sc) = sc := by
  cases hsc' : sc with
  | nil => rfl
  | cons c rest =>
    have hdata : (mkAbsPath (c :: rest)).data = '/' :: intercalateChars (c :: rest) := rfl
    rw [absCompsOf, hdata, splitChars_slash_cons,
      splitChars_intercalate _ (fun x hx => ((hsc' ▸ hsc) x hx).2.2.2) (List.cons_ne_nil c rest)]
    have hskip : cleanComps true ([] :: c :: rest) = cleanComps true (c :: rest) := rfl
    rw [hskip, cleanComps_valid_id true _ (hsc' ▸ hsc)]

theorem cleanStep_skip (abs : Bool) (acc : List (List Char)) (c : List Char)
    (h : c = [] ∨ c = ['.']) : cleanStep abs acc c = acc := by
  rw [cleanStep.eq_def, if_pos h]

theorem cleanStep_dotdot_rel_nil : cleanStep false [] dotdot = [dotdot] := by rfl

theorem cleanStep_dotdot_rel_dd (rest : List (List Char)) :
    cleanStep false (dotdot :: rest) dotdot = dotdot :: dotdot :: rest := by rfl

theorem cleanStep_dotdot_rel_pop (a : List Char) (rest : List (List Char))
    (ha : a ≠ dotdot) : cleanStep false (a :: rest) dotdot = rest := by
  rw [cleanStep.eq_def, if_neg (by simp [dotdot]), if_pos rfl]
  show (if a = dotdot then dotdot :: a :: rest else rest) = rest
  rw [if_neg ha]

theorem foldl_cleanStep_rel_shape : ∀ (L : List (List Char)), (∀ c ∈ L, '/' ∉ c) →
    ∀ (msR : List (List Char)) (k : Nat), ValidComps msR →
    ∃ (ms : List (List Char)) (j : Nat),
      List.foldl (cleanStep false) (msR ++ List.replicate k dotdot) L =
        ms ++ List.replicate j dotdot ∧ ValidComps ms
  | [], _, msR, k, hmsR => ⟨msR, k, rfl, hmsR⟩
  | c :: cs, hL, msR, k, hmsR => by
      have hcs : ∀ x ∈ cs, '/' ∉ x := fun x hx => hL x (List.mem_cons_of_mem c hx)
      rw [List.foldl_cons]
      by_cases h1 : c = [] ∨ c = ['.']
      · rw [cleanStep_skip false _ c h1]
        exact foldl_cleanStep_rel_shape cs hcs msR k hmsR
      · by_cases h2 : c = dotdot
        · subst h2
          cases hmsR' : msR with
          | nil =>
            cases k with
            | zero =>
              have hstep : cleanStep false (([] : List (List Char)) ++
                  List.replicate 0 dotdot) dotdot =
                  ([] : List (List Char)) ++ List.replicate 1 dotdot :=
                cleanStep_dotdot_rel_nil
              rw [hstep]
              exact foldl_cleanStep_rel_shape cs hcs [] 1 (fun x hx => by simp at hx)
            | succ k' =>
              have hstep : cleanStep false (([] : List (List Char)) ++
                  List.replicate (k' + 1) dotdot) dotdot =
                  ([] : List (List Char)) ++ List.replicate (k' + 2) dotdot := by
                rw [List.nil_append, List.nil_append, List.replicate_succ,
                  cleanStep_dotdot_rel_dd, ← List.replicate_succ, ← List.replicate_succ]
              rw [hstep]
              exact foldl_cleanStep_rel_shape cs hcs [] (k' + 2) (fun x hx => by simp at hx)
          | cons m ms' =>
            have hm : ValidComp m := (hmsR' ▸ hmsR) m (by simp)
            have hstep : cleanStep false ((m :: ms') ++ List.replicate k dotdot) dotdot =
                ms' ++ List.replicate k dotdot := by
              rw [List.cons_append, cleanStep_dotdot_rel_pop m _ hm.2.2.1]
            rw [hstep]
            exact foldl_cleanStep_rel_shape cs hcs ms' k
              (fun x hx => (hmsR' ▸ hmsR) x (List.mem_cons_of_mem m hx))
        · have hvc : ValidComp c :=
            ⟨fun h => h1 (Or.inl h), fun h => h1 (Or.inr h), h2, hL c (by simp)⟩
          rw [cleanStep_of_valid false _ c hvc]
          have hstep : c :: (msR ++ List.replicate k dotdot) =
              (c :: msR) ++ List.replicate k dotdot := rfl
          rw [hstep]
          exact foldl_cleanStep_rel_shape cs hcs (c :: msR) k
            (fun x hx => by
              rcases List.mem_cons.mp hx with rfl | hx
              · exact hvc
              · exact hmsR x hx)

theorem cleanComps_rel_shape (L : List (List Char)) (hL : ∀ c ∈ L, '/' ∉ c) :
    ∃ (k : Nat) (ms : List (List Char)),
      cleanComps false L = List.replicate k dotdot ++ ms ∧ ValidComps ms := by
  obtain ⟨ms, j, hfold, hval⟩ :=
    foldl_cleanStep_rel_shape L hL [] 0 (fun x hx => by simp at hx)
  refine ⟨j, ms.reverse, ?_, fun x hx => hval x (List.mem_reverse.mp hx)⟩
  rw [cleanComps]
  have h0 : ([] : List (List Char)) = [] ++ List.replicate 0 dotdot := rfl
  rw [h0, hfold]
  simp [List.reverse_append, List.reverse_replicate]

theorem foldl_cleanStep_abs_valid : ∀ (L : List (List Char)), (∀ c ∈ L, '/' ∉ c) →
    ∀ acc, ValidComps acc → ValidComps (List.foldl (cleanStep true) acc L)
  | [], _, _, hacc => hacc
  | c :: cs, hL, acc, hacc => by
      have hcs : ∀ x ∈ cs, '/' ∉ x := fun x hx => hL x (List.mem_cons_of_mem c hx)
      rw [List.foldl_cons]
      refine foldl_cleanStep_abs_valid cs hcs _ ?_
      by_cases h1 : c = [] ∨ c = ['.']
      · rw [cleanStep_skip true acc c h1]
        exact hacc
      · by_cases h2 : c = dotdot
        · subst h2
          rw [cleanStep_dotdot_abs acc (fun h => (hacc dotdot h).2.2.1 rfl)]
          exact fun x hx => hacc x (List.mem_of_mem_tail hx)
        · rw [cleanStep_of_valid true acc c
            ⟨fun h => h1 (Or.inl h), fun h => h1 (Or.inr h), h2, hL c (by simp)⟩]
          intro x hx
          rcases List.mem_cons.mp hx with rfl | hx
          · exact ⟨fun h => h1 (Or.inl h), fun h => h1 (Or.inr h), h2, hL x (by simp)⟩
          · exact hacc x hx

theorem cleanComps_abs_valid (L : List (List Char)) (hL : ∀ c ∈ L, '/' ∉ c) :
    ValidComps (cleanComps true L) := by
  intro c hc
  rw [cleanComps, List.mem_reverse] at hc
  exact foldl_cleanStep_abs_valid L hL [] (fun x hx => by simp at hx) c hc

theorem stripCommon_fst_subset : ∀ (a b : List (List Char)),
    ∀ x ∈ (stripCommon a b).1, x ∈ a
  | [], b => by intro x hx; cases b <;> simp [stripCommon] at hx
  | a :: as, [] => by intro x hx; simpa [stripCommon] using hx
  | a :: as, b :: bs => by
      intro x hx
      by_cases hab : a = b
      · rw [stripCommon, if_pos hab] at hx
        exact List.mem_cons_of_mem a (stripCommon_fst_subset as bs x hx)
      · rw [stripCommon, if_neg hab] at hx
        exact hx

theorem stripCommon_snd_subset : ∀ (a b : List (List Char)),
    ∀ x ∈ (stripCommon a b).2, x ∈ b
  | [], b => by intro x hx; cases b <;> simpa [stripCommon] using hx
  | a :: as, [] => by intro x hx; simp [stripCommon] at hx
  | a :: as, b :: bs => by
      intro x hx
      by_cases hab : a = b
      · rw [stripCommon, if_pos hab] at hx
        exact List.mem_cons_of_mem b (stripCommon_snd_subset as bs x hx)
      · rw [stripCommon, if_neg hab] at hx
        exact hx

theorem stripCommon_append_right : ∀ (a z : List (List Char)),
    stripCommon a (a ++ z) = ([], z)
  | [], z => by cases z <;> rfl
  | a :: as, z => by
      rw [List.cons_append, stripCommon, if_pos rfl, stripCommon_append_right as z]

theorem stripCommon_append_left : ∀ (a z : List (List Char)),
    stripCommon (a ++ z) a = (z, [])
  | [], z => by cases z <;> rfl
  | a :: as, z => by
      rw [List.cons_append, stripCommon, if_pos rfl, stripCommon_append_left as z]

theorem stripCommon_decomp : ∀ (a b : List (List Char)),
    ∃ c, a = c ++ (stripCommon a b).1 ∧ b = c ++ (stripCommon a b).2
  | [], b => by cases b <;> exact ⟨[], rfl, rfl⟩
  | a :: as, [] => ⟨[], rfl, rfl⟩
  | a :: as, b :: bs => by
      by_cases hab : a = b
      · obtain ⟨c, h1, h2⟩ := stripCommon_decomp as bs
        subst hab
        refine ⟨a :: c, ?_, ?_⟩
        · rw [stripCommon, if_pos rfl, List.cons_append, ← h1]
        · rw [stripCommon, if_pos rfl, List.cons_append, ← h2]
      · exact ⟨[], by rw [stripCommon, if_neg hab]; rfl, by rw [stripCommon, if_neg hab]; rfl⟩

theorem stripCommon_fst_nil_iff : ∀ (a b : List (List Char)),
    (stripCommon a b).1 = [] ↔ a <+: b := by
  intro a b
  constructor
  · intro h
    obtain ⟨c, h1, h2⟩ := stripCommon_decomp a b
    rw [h, List.append_nil] at h1
    exact ⟨(stripCommon a b).2, by rw [← h1] at h2; exact h2.symm⟩
  · rintro ⟨z, rfl⟩
    rw [stripCommon_append_right]

theorem not_ddslash_isPrefixOf_valid (c : List Char) (hc : ValidComp c) (X : List Char) :
    List.isPrefixOf ['.', '.', '/'] (c ++ X) = false := by
  obtain ⟨h1, h2, h3, h4⟩ := hc
  cases c with
  | nil => exact absurd rfl h1
  | cons a c' =>
    by_cases ha : a = '.'
    · subst ha
      cases c' with
      | nil => exact absurd rfl h2
      | cons b c'' =>
        by_cases hb : b = '.'
        · subst hb
          cases c'' with
          | nil => exact absurd rfl h3
          | cons d c''' =>
            have hd : ¬('/' = d) := fun h => h4 (by simp [← h])
            simp [List.isPrefixOf, hd]
        · have hb' : ¬('.' = b) := fun h => hb h.symm
          simp [List.isPrefixOf, hb']
    · have ha' : ¬('.' = a) := fun h => ha h.symm
      simp [List.isPrefixOf, ha']

theorem renderPath_rel_cons (c : List Char) (r : List (List Char)) :
    renderPath false (c :: r) = intercalateChars (c :: r) := by
  rw [renderPath, if_neg (by simp), if_neg (List.cons_ne_nil c r)]

theorem ddslash_isPrefixOf_render (k : Nat) (ms : List (List Char)) (hms : ValidComps ms) :
    List.isPrefixOf ['.', '.', '/']
        (renderPath false (List.replicate k dotdot ++ ms)) = true ↔
      (2 ≤ k ∨ (k = 1 ∧ ms ≠ [])) := by
  match k, ms with
  | 0, [] => simp [renderPath, List.isPrefixOf]
  | 0, c :: rest =>
    rw [List.replicate, List.nil_append, renderPath_rel_cons]
    cases rest with
    | nil =>
      have hi : intercalateChars [c] = c ++ [] := by simp [intercalateChars]
      rw [hi, not_ddslash_isPrefixOf_valid c (hms c (by simp))]
      simp
    | cons c' r' =>
      have hi : intercalateChars (c :: c' :: r') =
          c ++ '/' :: intercalateChars (c' :: r') := rfl
      rw [hi, not_ddslash_isPrefixOf_valid c (hms c (by simp))]
      simp
  | 1, [] => simp [renderPath, intercalateChars, List.isPrefixOf, dotdot]
  | 1, c :: rest =>
    have hi : List.replicate 1 dotdot ++ c :: rest = dotdot :: c :: rest := rfl
    rw [hi, renderPath_rel_cons]
    have hi2 : intercalateChars (dotdot :: c :: rest) =
        dotdot ++ '/' :: intercalateChars (c :: rest) := rfl
    rw [hi2]
    simp [dotdot, List.isPrefixOf]
  | k + 2, ms =>
    have hi : List.replicate (k + 2) dotdot ++ ms =
        dotdot :: (List.replicate (k + 1) dotdot ++ ms) := by
      rw [List.replicate_succ, List.cons_append]
    rw [hi, renderPath_rel_cons]
    have hi2 : intercalateChars (dotdot :: (List.replicate (k + 1) dotdot ++ ms)) =
        dotdot ++ '/' :: intercalateChars (List.replicate (k + 1) dotdot ++ ms) := by
      have : List.replicate (k + 1) dotdot ++ ms =
          dotdot :: (List.replicate k dotdot ++ ms) := by
        rw [List.replicate_succ, List.cons_append]
      rw [this]
      rfl
    rw [hi2]
    simp [dotdot, List.isPrefixOf]

theorem cleanComps_abs_append_replicate (sc ms : List (List Char)) (k : Nat)
    (hsc : ValidComps sc) (hms : ValidComps ms) :
    cleanComps true (sc ++ (List.replicate k dotdot ++ ms)) =
      (sc.reverse.drop k).reverse ++ ms := by
  rw [cleanComps, List.foldl_append, List.foldl_append,
    foldl_cleanStep_valid true sc hsc [], List.append_nil,
    foldl_cleanStep_replicate k sc.reverse
      (fun h => (hsc dotdot (List.mem_reverse.mp h)).2.2.1 rfl),
    foldl_cleanStep_valid true ms hms _]
  simp

theorem mkAbsPath_ne_empty (sc : List (List Char)) : mkAbsPath sc ≠ "" := by
  intro h
  have hd : (mkAbsPath sc).data = ("" : String).data := by rw [h]
  exact List.cons_ne_nil '/' (intercalateChars sc) hd

theorem goJoin_mkAbs (sc : List (List Char)) (hsc : ValidComps sc) (u : String)
    (hu : u ≠ "") :
    goJoin (mkAbsPath sc) u =
      ⟨renderPath true (cleanComps true (sc ++ splitChars u.data))⟩ := by
  rw [goJoin, if_neg (fun h => hu h.2), if_neg (mkAbsPath_ne_empty sc), if_neg hu]
  have hdata : (String.mk ((mkAbsPath sc).data ++ '/' :: u.data)).data =
      '/' :: (intercalateChars sc ++ '/' :: u.data) := rfl
  rw [goClean, hdata]
  have habs : isAbsChars ('/' :: (intercalateChars sc ++ '/' :: u.data)) = true := rfl
  rw [cleanChars, habs, splitChars_slash_cons, splitChars_append]
  cases hsc' : sc with
  | nil =>
    rfl
  | cons c rest =>
    rw [splitChars_intercalate _ (fun x hx => ((hsc' ▸ hsc) x hx).2.2.2)
      (List.cons_ne_nil c rest)]
    rfl

theorem goJoin_mkAbs_dotdot (sc : List (List Char)) (hsc : ValidComps sc) :
    goJoin (mkAbsPath sc) ".." = mkAbsPath (sc.reverse.drop 1).reverse := by
  rw [goJoin_mkAbs sc hsc ".." (by decide)]
  have h1 : splitChars (String.data "..") = [dotdot] := rfl
  have h2 : ([dotdot] : List (List Char)) = List.replicate 1 dotdot ++ [] := rfl
  rw [mkAbsPath, h1, h2,
    cleanComps_abs_append_replicate sc [] 1 hsc (fun x hx => by simp at hx),
    List.append_nil]

theorem goRel_mkAbs (b t : List (List Char)) (hb : ValidComps b) (ht : ValidComps t) :
    goRel (mkAbsPath b) (mkAbsPath t) =
      some ⟨renderPath false
        (List.replicate (stripCommon b t).1.length dotdot ++ (stripCommon b t).2)⟩ := by
  have hcb : cleanComps true (splitChars (mkAbsPath b).data) = b := absCompsOf_mkAbs b hb
  have hct : cleanComps true (splitChars (mkAbsPath t).data) = t := absCompsOf_mkAbs t ht
  have habsb : goIsAbs (mkAbsPath b) = true := rfl
  have habst : goIsAbs (mkAbsPath t) = true := rfl
  rw [goRel]
  simp only [habsb, habst, ne_eq, not_true_eq_false, if_false, hcb, hct]
  rw [if_neg (fun h => (hb dotdot (stripCommon_fst_subset b t dotdot h)).2.2.1 rfl)]

theorem stripCommon_nil_left (b : List (List Char)) :
    stripCommon [] b = ([], b) := by
  cases b <;> rfl

theorem mkAbsPath_inj (a b : List (List Char)) (ha : ValidComps a) (hb : ValidComps b)
    (h : mkAbsPath a = mkAbsPath b) : a = b := by
  have h1 := absCompsOf_mkAbs a ha
  rw [h, absCompsOf_mkAbs b hb] at h1
  exact h1.symm

/-- C4 amended: classification re-resolves against the scope directory
(never the current document's directory), strips no fragment, and checks
the boundary only when the cleaned destination begins with "../"; in that
branch the destination is classified internal exactly when its
scope-directory re-resolution lands at or under the boundary, or exactly
on the scope's parent directory (the resolution of ".."). -/
theorem isInternalLink_characterization (url : String) (sc : List (List Char))
    (hsc : ValidComps sc) :
    isInternalLink url (mkAbsPath sc) = true ↔
      ((goStartsWith url "http://" = false ∧ goStartsWith url "https://" = false ∧
        goStartsWith url "#" = false ∧ goStartsWith url "mailto:" = false ∧
        goIsAbs url = false) ∧
       (goStartsWith (goClean url) "../" = true →
         (atOrUnder (goJoin (mkAbsPath sc) (goClean url)) (mkAbsPath sc) = true ∨
          goJoin (mkAbsPath sc) (goClean url) = goJoin (mkAbsPath sc) ".."))) := by
  by_cases hs1 : (goStartsWith url "http://" || goStartsWith url "https://") = true
  · rw [isInternalLink, if_pos hs1]
    constructor
    · intro h
      exact absurd h (by simp)
    · rintro ⟨⟨ha, hb, -⟩, -⟩
      rw [ha, hb] at hs1
      exact absurd hs1 (by simp)
  · by_cases hs2 : goStartsWith url "#" = true
    · rw [isInternalLink, if_neg hs1, if_pos hs2]
      constructor
      · intro h
        exact absurd h (by simp)
      · rintro ⟨⟨-, -, hc, -⟩, -⟩
        rw [hs2] at hc
        exact absurd hc (by simp)
    · by_cases hs3 : goStartsWith url "mailto:" = true
      · rw [isInternalLink, if_neg hs1, if_neg hs2, if_pos hs3]
        constructor
        · intro h
          exact absurd h (by simp)
        · rintro ⟨⟨-, -, -, hd, -⟩, -⟩
          rw [hs3] at hd
          exact absurd hd (by simp)
      · by_cases hs4 : goIsAbs url = true
        · rw [isInternalLink, if_neg hs1, if_neg hs2, if_neg hs3, if_pos hs4]
          constructor
          · intro h
            exact absurd h (by simp)
          · rintro ⟨⟨-, -, -, -, he⟩, -⟩
            rw [hs4] at he
            exact absurd he (by simp)
        · have hAB : (goStartsWith url "http://" || goStartsWith url "https://") = false :=
            Bool.eq_false_iff.mpr hs1
          have hA : goStartsWith url "http://" = false :=
            (Bool.or_eq_false_iff.mp hAB).1
          have hB : goStartsWith url "https://" = false :=
            (Bool.or_eq_false_iff.mp hAB).2
          have hC : goStartsWith url "#" = false := Bool.eq_false_iff.mpr hs2
          have hD : goStartsWith url "mailto:" = false := Bool.eq_false_iff.mpr hs3
          have hE : goIsAbs url = false := Bool.eq_false_iff.mpr hs4
          rw [isInternalLink, if_neg hs1, if_neg hs2, if_neg hs3, if_neg hs4]
          suffices hmain :
              ((if goStartsWith (goClean url) "../" = true then
                  match goRel (mkAbsPath sc) (goJoin (mkAbsPath sc) (goClean url)) with
                  | none => false
                  | some relPath => !goStartsWith relPath "../"
                else true) = true ↔
                (goStartsWith (goClean url) "../" = true →
                  (atOrUnder (goJoin (mkAbsPath sc) (goClean url)) (mkAbsPath sc) = true ∨
                   goJoin (mkAbsPath sc) (goClean url) = goJoin (mkAbsPath sc) ".."))) by
            constructor
            · intro h
              exact ⟨⟨hA, hB, hC, hD, hE⟩, hmain.mp h⟩
            · rintro ⟨-, h⟩
              exact hmain.mpr h
          by_cases hp : goStartsWith (goClean url) "../" = true
          · rw [if_pos hp]
            have hrelabs : isAbsChars url.data = false := hE
            have hu : goClean url =
                ⟨renderPath false (cleanComps false (splitChars url.data))⟩ := by
              rw [goClean, cleanChars, hrelabs]
            obtain ⟨k, ms, hm, hmsv⟩ :=
              cleanComps_rel_shape (splitChars url.data) (splitChars_no_slash url.data)
            rw [hm] at hu
            have hp' : List.isPrefixOf ['.', '.', '/']
                (renderPath false (List.replicate k dotdot ++ ms)) = true := by
              have hd : (goClean url).data =
                  renderPath false (List.replicate k dotdot ++ ms) := by rw [hu]
              rw [goStartsWith, hd] at hp
              exact hp
            have hpk : 2 ≤ k ∨ (k = 1 ∧ ms ≠ []) :=
              (ddslash_isPrefixOf_render k ms hmsv).mp hp'
            have hk1 : 1 ≤ k := by rcases hpk with h | ⟨h, -⟩ <;> omega
            have hune : goClean url ≠ "" := by
              intro h
              rw [goStartsWith, h] at hp
              exact absurd hp (by decide)
            have hsplit : splitChars (goClean url).data =
                List.replicate k dotdot ++ ms := by
              have hd : (goClean url).data =
                  renderPath false (List.replicate k dotdot ++ ms) := by rw [hu]
              rw [hd]
              cases k with
              | zero => exact absurd hk1 (by omega)
              | succ k' =>
                have hcons : List.replicate (k' + 1) dotdot ++ ms =
                    dotdot :: (List.replicate k' dotdot ++ ms) := by
                  rw [List.replicate_succ, List.cons_append]
                rw [hcons, renderPath_rel_cons,
                  splitChars_intercalate _ ?_ (List.cons_ne_nil _ _), ← hcons]
                intro c hc
                rcases List.mem_cons.mp hc with rfl | hc
                · simp [dotdot]
                · rcases List.mem_append.mp hc with hc | hc
                  · rw [List.eq_of_mem_replicate hc]
                    simp [dotdot]
                  · exact (hmsv c hc).2.2.2
            have hjoin : goJoin (mkAbsPath sc) (goClean url) =
                mkAbsPath ((sc.reverse.drop k).reverse ++ ms) := by
              rw [goJoin_mkAbs sc hsc _ hune, hsplit, mkAbsPath,
                cleanComps_abs_append_replicate sc ms k hsc hmsv]
            have hAv : ValidComps ((sc.reverse.drop k).reverse ++ ms) := by
              intro x hx
              rcases List.mem_append.mp hx with hx | hx
              · exact hsc x (List.mem_reverse.mp (List.mem_of_mem_drop
                  (List.mem_reverse.mp hx)))
              · exact hmsv x hx
            have hrel2 := goRel_mkAbs sc ((sc.reverse.drop k).reverse ++ ms) hsc hAv
            rw [hjoin, hrel2]
            have hT1v : ValidComps (stripCommon sc ((sc.reverse.drop k).reverse ++ ms)).2 :=
              fun x hx => hAv x (stripCommon_snd_subset sc _ x hx)
            have hchar := ddslash_isPrefixOf_render
              (stripCommon sc ((sc.reverse.drop k).reverse ++ ms)).1.length
              (stripCommon sc ((sc.reverse.drop k).reverse ++ ms)).2 hT1v
            have hchar2 : goStartsWith
                (⟨renderPath false
                  (List.replicate
                    (stripCommon sc ((sc.reverse.drop k).reverse ++ ms)).1.length dotdot ++
                    (stripCommon sc ((sc.reverse.drop k).reverse ++ ms)).2)⟩ : String)
                "../" = true ↔
                (2 ≤ (stripCommon sc ((sc.reverse.drop k).reverse ++ ms)).1.length ∨
                 ((stripCommon sc ((sc.reverse.drop k).reverse ++ ms)).1.length = 1 ∧
                  (stripCommon sc ((sc.reverse.drop k).reverse ++ ms)).2 ≠ [])) := hchar
            have hat_iff : atOrUnder (mkAbsPath ((sc.reverse.drop k).reverse ++ ms))
                (mkAbsPath sc) = true ↔
                (stripCommon sc ((sc.reverse.drop k).reverse ++ ms)).1 = [] := by
              rw [atOrUnder, absCompsOf_mkAbs sc hsc, absCompsOf_mkAbs _ hAv,
                List.isPrefixOf_iff_prefix]
              exact (stripCommon_fst_nil_iff sc _).symm
            have hPv : ValidComps (sc.reverse.drop 1).reverse := fun x hx =>
              hsc x (List.mem_reverse.mp (List.mem_of_mem_drop (List.mem_reverse.mp hx)))
            have hpar_iff : mkAbsPath ((sc.reverse.drop k).reverse ++ ms) =
                goJoin (mkAbsPath sc) ".." ↔
                ((sc.reverse.drop k).reverse ++ ms) = (sc.reverse.drop 1).reverse := by
              rw [goJoin_mkAbs_dotdot sc hsc]
              exact ⟨fun h => mkAbsPath_inj _ _ hAv hPv h, fun h => by rw [h]⟩
            have hcomb : ((stripCommon sc ((sc.reverse.drop k).reverse ++ ms)).1 = [] ∨
                ((sc.reverse.drop k).reverse ++ ms) = (sc.reverse.drop 1).reverse) ↔
                ¬(2 ≤ (stripCommon sc ((sc.reverse.drop k).reverse ++ ms)).1.length ∨
                  ((stripCommon sc ((sc.reverse.drop k).reverse ++ ms)).1.length = 1 ∧
                   (stripCommon sc ((sc.reverse.drop k).reverse ++ ms)).2 ≠ [])) := by
              constructor
              · rintro (h0 | hP)
                · rw [h0]
                  simp
                · rcases List.eq_nil_or_concat sc with hscnil | ⟨d, y, hsceq⟩
                  · subst hscnil
                    rw [stripCommon_nil_left]
                    simp
                  · rw [List.concat_eq_append] at hsceq
                    have hPeq : (sc.reverse.drop 1).reverse = d := by
                      rw [hsceq]
                      simp
                    rw [hP, hPeq]
                    have hval : stripCommon sc d = ([y], []) := by
                      conv_lhs => rw [hsceq]
                      exact stripCommon_append_left d [y]
                    rw [hval]
                    simp
              · intro hnot
                push_neg at hnot
                obtain ⟨hlen, himp⟩ := hnot
                have hcases : (stripCommon sc ((sc.reverse.drop k).reverse ++ ms)).1.length = 0 ∨
                    (stripCommon sc ((sc.reverse.drop k).reverse ++ ms)).1.length = 1 := by
                  omega
                rcases hcases with h0 | h1
                · exact Or.inl (List.length_eq_zero.mp h0)
                · right
                  have ht1 : (stripCommon sc ((sc.reverse.drop k).reverse ++ ms)).2 = [] :=
                    himp h1
                  obtain ⟨x, hx⟩ := List.length_eq_one.mp h1
                  obtain ⟨c, hc1, hc2⟩ :=
                    stripCommon_decomp sc ((sc.reverse.drop k).reverse ++ ms)
                  rw [hx] at hc1
                  rw [ht1, List.append_nil] at hc2
                  rw [hc2, hc1]
                  simp
            show (!goStartsWith
                (⟨renderPath false
                  (List.replicate
                    (stripCommon sc ((sc.reverse.drop k).reverse ++ ms)).1.length dotdot ++
                    (stripCommon sc ((sc.reverse.drop k).reverse ++ ms)).2)⟩ : String)
                "../") = true ↔ _
            constructor
            · intro h
              intro hignore
              have hfalse : goStartsWith
                  (⟨renderPath false
                    (List.replicate
                      (stripCommon sc ((sc.reverse.drop k).reverse ++ ms)).1.length dotdot ++
                      (stripCommon sc ((sc.reverse.drop k).reverse ++ ms)).2)⟩ : String)
                  "../" = false := by
                simpa using h
              have hnot : ¬(2 ≤ (stripCommon sc ((sc.reverse.drop k).reverse ++ ms)).1.length ∨
                  ((stripCommon sc ((sc.reverse.drop k).reverse ++ ms)).1.length = 1 ∧
                   (stripCommon sc ((sc.reverse.drop k).reverse ++ ms)).2 ≠ [])) := by
                intro hcontra
                have hT := hchar2.mpr hcontra
                have : (false : Bool) = true := hfalse ▸ hT
                exact absurd this (by simp)
              rcases hcomb.mpr hnot with h0 | hP
              · exact Or.inl (hat_iff.mpr h0)
              · exact Or.inr (hpar_iff.mpr hP)
            · intro h
              have hor := h hp
              have hAP : (stripCommon sc ((sc.reverse.drop k).reverse ++ ms)).1 = [] ∨
                  ((sc.reverse.drop k).reverse ++ ms) = (sc.reverse.drop 1).reverse := by
                rcases hor with hat | hpar
                · exact Or.inl (hat_iff.mp hat)
                · exact Or.inr (hpar_iff.mp hpar)
              have hnot := hcomb.mp hAP
              have hfalse : goStartsWith
                  (⟨renderPath false
                    (List.replicate
                      (stripCommon sc ((sc.reverse.drop k).reverse ++ ms)).1.length dotdot ++
                      (stripCommon sc ((sc.reverse.drop k).reverse ++ ms)).2)⟩ : String)
                  "../" = false :=
                Bool.eq_false_iff.mpr (fun htrue => hnot (hchar2.mp htrue))
              rw [hfalse]
              rfl
          · rw [if_neg hp]
            simp [hp]

theorem isInternalLink_characterization_witness :
    ValidComps [['s']] ∧
    (isInternalLink ".." (mkAbsPath [['s']]) = true ↔
      ((goStartsWith ".." "http://" = false ∧ goStartsWith ".." "https://" = false ∧
        goStartsWith ".." "#" = false ∧ goStartsWith ".." "mailto:" = false ∧
        goIsAbs ".." = false) ∧
       (goStartsWith (goClean "..") "../" = true →
         (atOrUnder (goJoin (mkAbsPath [['s']]) (goClean "..")) (mkAbsPath [['s']]) = true ∨
          goJoin (mkAbsPath [['s']]) (goClean "..") = goJoin (mkAbsPath [['s']]) "..")))) :=
  ⟨by intro c hc; simp at hc; subst hc; exact ⟨by decide, by decide, by decide, by decide⟩,
    isInternalLink_characterization ".." [['s']]
      (by intro c hc; simp at hc; subst hc;
          exact ⟨by decide, by decide, by decide, by decide⟩)⟩

end Catmd
